import Mathlib

/-!
Shallow embedding of the hybrid sequential/parallel Dijkstra program in
`main.cpp`: the DIMACS graph reader `read_dimacs_gr`, the two shortest-path
routines `dijkstra_sequential` and `dijkstra_parallel`, and the parent-link
path reconstruction performed in `main`.

Modelling conventions:
* C++ `int` and `long long` values are modelled as unbounded `Int`; claims
  about overflow are settled as explicit range bounds on the exact values.
  Nat ids that occur as vector indices are modelled as `Nat`.
* `std::priority_queue<PQItem, std::vector<PQItem>, std::greater<PQItem>>`
  pops the least `(distance, node)` pair in the lexicographic pair order;
  it is modelled as a list of entries together with a deterministic
  pop-minimum operation (`popMin`).
* the `while` loops take explicit fuel; `none` means the fuel ran out
  before the queue emptied.
* `tbb::parallel_for` together with the mutex-guarded `all_updates` vector
  is modelled deterministically: candidate updates are collected in edge
  order against a snapshot of `dist`, then applied serially in that order,
  which is exactly the two-phase propose-then-confirm structure of the
  source (`candUpdates` / `applyUpdate`).
-/

namespace Dijkstra

/-- Directed edge, from `struct Edge { int to; int weight; }`. -/
structure Edge where
  «to» : Nat
  weight : Int
deriving DecidableEq

/-- Adjacency function: `graph[u]` of `Graph = std::vector<std::vector<Edge>>`. -/
abbrev Graph := Nat → List Edge

/-- Sentinel "infinite" distance: `std::numeric_limits<long long>::max() / 4`
with C++ integer division. -/
def INF : Int := 9223372036854775807 / 4

/-- Priority-queue entry `(distance, node)`, the C++ `PQItem`. -/
abbrev PQItem := Int × Nat

/-- Least entry of `x :: l` in the lexicographic pair order used by
`std::greater<std::pair<long long, int>>`. -/
def pqMin (x : PQItem) (l : List PQItem) : PQItem :=
  l.foldl (fun m y => if y.1 < m.1 ∨ (y.1 = m.1 ∧ y.2 < m.2) then y else m) x

/-- Model of `pq.top(); pq.pop()`: remove and return the least entry. -/
def popMin : List PQItem → Option (PQItem × List PQItem)
  | [] => none
  | x :: xs => some (pqMin x xs, (x :: xs).erase (pqMin x xs))

/-- State of one Dijkstra run: the priority queue and the `dist` and `parent`
vectors, the latter modelled as functions from node ids.  `parent` keeps the
C++ convention that `-1` means "no parent". -/
structure DState where
  pq : List PQItem
  dist : Nat → Int
  parent : Nat → Int

/-- Relax one edge `e` out of the popped node `u` whose popped distance is
`d`: the body of `for (const auto &e : graph[u])` in `dijkstra_sequential`. -/
def relaxEdge (u : Nat) (d : Int) (s : DState) (e : Edge) : DState :=
  if d + e.weight < s.dist e.to then
    { pq := (d + e.weight, e.to) :: s.pq
      dist := fun v => if v = e.to then d + e.weight else s.dist v
      parent := fun v => if v = e.to then (u : Int) else s.parent v }
  else s

/-- Relax a list of edges in order. -/
def relaxAll (u : Nat) (d : Int) (s : DState) (es : List Edge) : DState :=
  es.foldl (relaxEdge u d) s

/-- Result of a run: the final `dist` and `parent` vectors (`DijkstraResult`). -/
abbrev DResult := (Nat → Int) × (Nat → Int)

/-- Main loop of `dijkstra_sequential`, with explicit fuel. -/
def seqLoop (g : Graph) : Nat → DState → Option DResult
  | 0, s =>
    match popMin s.pq with
    | none => some (s.dist, s.parent)
    | some _ => none
  | fuel + 1, s =>
    match popMin s.pq with
    | none => some (s.dist, s.parent)
    | some ((d, u), rest) =>
      if d = s.dist u then seqLoop g fuel (relaxAll u d { s with pq := rest } (g u))
      else seqLoop g fuel { s with pq := rest }

/-- Initial state shared by both routines: `dist[source] = 0`, every other
distance `INF`, all parents `-1`, and `(0, source)` in the queue. -/
def initState (source : Nat) : DState :=
  { pq := [(0, source)]
    dist := fun v => if v = source then 0 else INF
    parent := fun _ => -1 }

/-- Model of `dijkstra_sequential`, with explicit loop fuel. -/
def dijkstra_sequential (g : Graph) (source : Nat) (fuel : Nat) : Option DResult :=
  seqLoop g fuel (initState source)

/-- Candidate update, the C++ `struct Update { int v; long long nd; int p; }`. -/
structure Update where
  v : Nat
  nd : Int
  p : Nat
deriving DecidableEq

/-- Edge-count threshold `PARALLEL_THRESHOLD = 100` of `dijkstra_parallel`. -/
def PARALLEL_THRESHOLD : Nat := 100

/-- Candidates collected by the parallel section: every edge whose relaxation
test succeeds against the snapshot of `dist`, in edge order (deterministic
model of `tbb::parallel_for` plus the mutex-guarded `all_updates`). -/
def candUpdates (u : Nat) (d : Int) (dist : Nat → Int) (es : List Edge) : List Update :=
  es.filterMap fun e =>
    if d + e.weight < dist e.to then some ⟨e.to, d + e.weight, u⟩ else none

/-- Serially apply one collected update: `if (up.nd < dist[up.v]) { ... }`. -/
def applyUpdate (s : DState) (up : Update) : DState :=
  if up.nd < s.dist up.v then
    { pq := (up.nd, up.v) :: s.pq
      dist := fun v => if v = up.v then up.nd else s.dist v
      parent := fun v => if v = up.v then (up.p : Int) else s.parent v }
  else s

/-- Parallel branch for one popped node: collect candidates against the
`dist` snapshot, then apply them serially. -/
def parRelax (u : Nat) (d : Int) (s : DState) (es : List Edge) : DState :=
  (candUpdates u d s.dist es).foldl applyUpdate s

/-- Main loop of `dijkstra_parallel`, with explicit fuel. -/
def parLoop (g : Graph) : Nat → DState → Option DResult
  | 0, s =>
    match popMin s.pq with
    | none => some (s.dist, s.parent)
    | some _ => none
  | fuel + 1, s =>
    match popMin s.pq with
    | none => some (s.dist, s.parent)
    | some ((d, u), rest) =>
      if d = s.dist u then
        if (g u).isEmpty then parLoop g fuel { s with pq := rest }
        else if (g u).length < PARALLEL_THRESHOLD then
          parLoop g fuel (relaxAll u d { s with pq := rest } (g u))
        else parLoop g fuel (parRelax u d { s with pq := rest } (g u))
      else parLoop g fuel { s with pq := rest }

/-- Model of `dijkstra_parallel`, with explicit loop fuel. -/
def dijkstra_parallel (g : Graph) (source : Nat) (fuel : Nat) : Option DResult :=
  parLoop g fuel (initState source)

/-- Backward walk `for (int v = target; v != -1; v = parent[v])` from `main`,
with fuel; produces the node list in target-to-source order.  A negative
value other than `-1` would be an out-of-bounds `parent[v]` access and yields
`none`, as does fuel exhaustion (the C++ loop would never terminate on a
cycle of parent links). -/
def backtrack (par : Nat → Int) : Nat → Int → Option (List Int)
  | 0, _ => none
  | fuel + 1, v =>
    if v = -1 then some []
    else if 0 ≤ v then (backtrack par fuel (par v.toNat)).map (fun l => v :: l)
    else none

/-- Path reconstruction of `main`: the backward walk reversed into
source-to-target order (`std::reverse(path.begin(), path.end())`). -/
def reconstructPath (par : Nat → Int) (fuel : Nat) (target : Nat) : Option (List Int) :=
  (backtrack par fuel (target : Int)).map List.reverse

/-! Walks, reachability and shortest distances in the graph model. -/

/-- Directed walk from `a` to `b` of total edge weight `c`. -/
inductive Walk (g : Graph) : Nat → Nat → Int → Prop
  | nil (u : Nat) : Walk g u u 0
  | cons {t : Nat} {c : Int} (u : Nat) (e : Edge) (he : e ∈ g u)
      (hw : Walk g e.to t c) : Walk g u t (e.weight + c)

/-- Reachability along walks. -/
def Reachable (g : Graph) (a b : Nat) : Prop := ∃ c, Walk g a b c

/-- All edge weights are nonnegative (the precondition of Dijkstra's algorithm;
the spec data model declares weights to be nonnegative integers). -/
def Nonneg (g : Graph) : Prop := ∀ u : Nat, ∀ e ∈ g u, 0 ≤ e.weight

/-- Shortest-walk distance: achieved by some walk and a lower bound of every walk. -/
def IsShortest (g : Graph) (a b : Nat) (d : Int) : Prop :=
  Walk g a b d ∧ ∀ c, Walk g a b c → d ≤ c

/-! Parent links: chains, termination of the backward walk, and path costs. -/

/-- Following parent links from `v` eventually reaches the `-1` marker. -/
inductive Terminates (par : Nat → Int) : Nat → Prop
  | root (v : Nat) : par v = -1 → Terminates par v
  | step (v p : Nat) : par v = (p : Int) → Terminates par p → Terminates par v

/-- Nat `b` lies on the parent chain starting at `a` (inclusive). -/
inductive OnChain (par : Nat → Int) : Nat → Nat → Prop
  | refl (v : Nat) : OnChain par v v
  | step (v p b : Nat) : par v = (p : Int) → OnChain par p b → OnChain par v b

/-- Cost of a node sequence through existing edges: `PathCost g l c` states the
consecutive nodes of `l` are joined by edges of `g` whose weights sum to `c`. -/
inductive PathCost (g : Graph) : List Nat → Int → Prop
  | single (v : Nat) : PathCost g [v] 0
  | cons (u v : Nat) (rest : List Nat) (e : Edge) (c : Int) (he : e ∈ g u)
      (hto : e.to = v) (hp : PathCost g (v :: rest) c) : PathCost g (u :: v :: rest) (e.weight + c)

/-- Invariant clauses that are preserved edge by edge inside one relaxation
round (everything except relaxedness of the settled region). -/
structure InvNR (g : Graph) (src : Nat) (S : Nat → Prop) (st : DState) : Prop where
  valid : ∀ v, st.dist v = INF ∨ ∃ c, Walk g src v c ∧ st.dist v = c ∧ c < INF
  qvalid : ∀ p ∈ st.pq, ∃ c, Walk g src p.2 c ∧ p.1 = c ∧ c < INF ∧ st.dist p.2 ≤ p.1
  src0 : st.dist src = 0
  srcpar : st.parent src = -1
  settledOpt : ∀ u, S u → ∀ c, Walk g src u c → st.dist u ≤ c
  settledFin : ∀ u, S u → st.dist u < INF
  frontier : ∀ v, ¬ S v → st.dist v < INF → (st.dist v, v) ∈ st.pq
  parNone : ∀ v, st.parent v = -1 → v = src ∨ st.dist v = INF
  parEdge : ∀ v, st.parent v ≠ -1 → ∃ p : Nat, st.parent v = (p : Int) ∧
    ∃ e ∈ g p, e.to = v ∧ st.dist p + e.weight ≤ st.dist v ∧ st.dist v < INF
  parAcc : ∀ v, Terminates st.parent v

/-- Full loop invariant: `InvNR` together with relaxedness of every edge
leaving the settled region. -/
structure Inv (g : Graph) (src : Nat) (S : Nat → Prop) (st : DState)
    extends InvNR g src S st : Prop where
  settledRelax : ∀ u, S u → ∀ e ∈ g u, st.dist e.to ≤ st.dist u + e.weight

/-! Loop-step relations and the states reachable during a run, used to state
the claims about every intermediate observation point. -/

/-- One iteration of the `dijkstra_sequential` main loop, as a relation. -/
def SeqStep (g : Graph) (s s' : DState) : Prop :=
  ∃ d u rest, popMin s.pq = some ((d, u), rest) ∧
    ((d ≠ s.dist u ∧ s' = { s with pq := rest }) ∨
     (d = s.dist u ∧ s' = relaxAll u d { s with pq := rest } (g u)))

/-- One iteration of the `dijkstra_parallel` main loop, as a relation. -/
def ParStep (g : Graph) (s s' : DState) : Prop :=
  ∃ d u rest, popMin s.pq = some ((d, u), rest) ∧
    ((d ≠ s.dist u ∧ s' = { s with pq := rest }) ∨
     (d = s.dist u ∧
       (((g u).isEmpty = true ∧ s' = { s with pq := rest }) ∨
        ((g u).isEmpty = false ∧ (g u).length < PARALLEL_THRESHOLD ∧
          s' = relaxAll u d { s with pq := rest } (g u)) ∨
        ((g u).isEmpty = false ∧ ¬ (g u).length < PARALLEL_THRESHOLD ∧
          s' = parRelax u d { s with pq := rest } (g u)))))

/-- States visited by the `dijkstra_sequential` main loop, at loop-iteration
granularity. -/
def ReachesSeq (g : Graph) (src : Nat) (s : DState) : Prop :=
  Relation.ReflTransGen (SeqStep g) (initState src) s

/-- States visited by the `dijkstra_parallel` main loop, at loop-iteration
granularity. -/
def ReachesPar (g : Graph) (src : Nat) (s : DState) : Prop :=
  Relation.ReflTransGen (ParStep g) (initState src) s

/-- Light run invariant: the source distance is pinned at `0` and every
distance lies in `[0, INF]`. -/
def BInv (src : Nat) (st : DState) : Prop :=
  st.dist src = 0 ∧ ∀ v, 0 ≤ st.dist v ∧ st.dist v ≤ INF

/-! An input on which the shortest distance of a reachable node exceeds the
sentinel `INF`: a chain of `chainN` maximum-weight `int` edges.  The final
relaxation test `nd < dist[e.to]` fails against the sentinel, so the run
leaves the last node at `INF` even though it is reachable. -/

/-- Largest `int` edge weight, `2^31 - 1`. -/
def chainW : Int := 2147483647

/-- Number of chain edges: the least `k` with `k * chainW ≥ INF`. -/
def chainN : Nat := 1073741825

/-- Chain graph `1 → 2 → ... → chainN + 1`, every edge of weight `chainW`. -/
def gChain : Graph := fun v => if 1 ≤ v ∧ v ≤ chainN then [⟨v + 1, chainW⟩] else []

/-- Distances after the first `k` chain nodes have been relaxed. -/
def chainDist (k : Nat) : Nat → Int :=
  fun v => if 1 ≤ v ∧ v ≤ k then ((v : Int) - 1) * chainW else INF

/-- Parents after the first `k` chain nodes have been relaxed. -/
def chainPar (k : Nat) : Nat → Int :=
  fun v => if 2 ≤ v ∧ v ≤ k then ((v : Int) - 1) else -1

/-- Loop state when node `k` is at the head of the queue. -/
def chainState (k : Nat) : DState :=
  { pq := [(((k : Int) - 1) * chainW, k)]
    dist := chainDist k
    parent := chainPar k }

/-! Model of the DIMACS reader `read_dimacs_gr`. -/

/-- Edge record as stored by the reader: both fields are C++ `int`s taken
straight from the file, with no range check applied to either. -/
structure RawEdge where
  «to» : Int
  weight : Int
deriving DecidableEq

/-- Abstraction of one text line, following the case analysis of the source
on `line[0]` (`'c'`, `'p'`, `'a'`, or anything else, including empty lines;
the stringstream integer parsing itself is not modelled). -/
inductive GrLine where
  | comment : GrLine
  | problem (n m : Int) : GrLine
  | arc (u v w : Int) : GrLine
  | other : GrLine
deriving DecidableEq

/-- Reader state: the adjacency vector and the `n_nodes` out-parameter. -/
structure GrState where
  graph : List (List RawEdge)
  n_nodes : Int
deriving DecidableEq

/-- Processing of one line of the file.  `none` marks abnormal outcomes that
are not a clean `false` return: an arc record whose tail index `u` lies
outside the current `graph` bounds is an unchecked out-of-bounds `graph[u]`
access (undefined behavior), and a problem line with `n_nodes + 1 < 0` turns
into a huge unsigned `graph.assign` size.  Everything else succeeds, with no
validation of node ranges, edge weights, or declared edge counts. -/
def processLine (st : GrState) (l : GrLine) : Option GrState :=
  match l with
  | .comment => some st
  | .other => some st
  | .problem n _ =>
      if 0 ≤ n + 1 then some ⟨List.replicate (n + 1).toNat [], n⟩ else none
  | .arc u v w =>
      if 0 ≤ u ∧ u.toNat < st.graph.length then
        some ⟨st.graph.set u.toNat ((st.graph.getD u.toNat []) ++ [⟨v, w⟩]), st.n_nodes⟩
      else none

/-- Model of `read_dimacs_gr`.  The input is `none` when the file cannot be
opened (the `!in` early return yields `false`), otherwise the parsed line
list.  The result pairs the C++ return value with the final reader state;
`none` models undefined behavior reached while processing a line. -/
def read_dimacs_gr (file : Option (List GrLine)) : Option (Bool × GrState) :=
  match file with
  | none => some (false, ⟨[], 0⟩)
  | some ls => (ls.foldlM processLine ⟨[], 0⟩).map (fun st => (true, st))

/-- Well-indexed line lists: every arc record indexes inside the adjacency
vector allocated so far, and every problem line declares at least `-1`
nodes.  Nothing about edge weights or edge counts is required. -/
def linesOK : List GrLine → Nat → Prop
  | [], _ => True
  | .comment :: ls, len => linesOK ls len
  | .other :: ls, len => linesOK ls len
  | .problem n _ :: ls, _ => 0 ≤ n + 1 ∧ linesOK ls (n + 1).toNat
  | .arc u _ _ :: ls, len => (0 ≤ u ∧ u.toNat < len) ∧ linesOK ls len

/-! Small concrete inputs used by the witnesses. -/

/-- Graph with no edges at all. -/
def gEmpty : Graph := fun _ => []

/-- Graph with the single edge `1 → 2` of weight `5`. -/
def gOne : Graph := fun u => if u = 1 then [⟨2, 5⟩] else []

/-- Result of running either routine on `gOne` from source `1`. -/
def resOne : DResult :=
  ((fun v => if v = 2 then (0 : Int) + 5 else (initState 1).dist v),
   (fun v => if v = 2 then ((1 : Nat) : Int) else (initState 1).parent v))

/-- State whose queue holds a single stale entry for node `1`. -/
def stStale : DState := ⟨[(5, 1)], (initState 1).dist, (initState 1).parent⟩

/-! Basic facts about `popMin`. -/

theorem pqMin_mem (x : PQItem) (l : List PQItem) : pqMin x l ∈ x :: l := by
  induction l generalizing x with
  | nil => simp [pqMin]
  | cons y ys ih =>
    have step : pqMin x (y :: ys) =
        pqMin (if y.1 < x.1 ∨ (y.1 = x.1 ∧ y.2 < x.2) then y else x) ys := rfl
    rw [step]
    rcases List.mem_cons.mp (ih (if y.1 < x.1 ∨ (y.1 = x.1 ∧ y.2 < x.2) then y else x)) with h | h
    · rw [h]
      split
      · simp
      · simp
    · simp [h]

theorem pqMin_fst_le_aux : ∀ (l : List PQItem) (x : PQItem),
    (pqMin x l).1 ≤ x.1 ∧ ∀ y ∈ l, (pqMin x l).1 ≤ y.1 := by
  intro l
  induction l with
  | nil => intro x; exact ⟨le_refl _, by simp⟩
  | cons z zs ih =>
    intro x
    have step : pqMin x (z :: zs) =
        pqMin (if z.1 < x.1 ∨ (z.1 = x.1 ∧ z.2 < x.2) then z else x) zs := rfl
    rw [step]
    obtain ⟨ih1, ih2⟩ := ih (if z.1 < x.1 ∨ (z.1 = x.1 ∧ z.2 < x.2) then z else x)
    have hx'le : (if z.1 < x.1 ∨ (z.1 = x.1 ∧ z.2 < x.2) then z else x).1 ≤ x.1 ∧
        (if z.1 < x.1 ∨ (z.1 = x.1 ∧ z.2 < x.2) then z else x).1 ≤ z.1 := by
      split
      · rename_i hc
        refine ⟨?_, le_refl _⟩
        rcases hc with h | h
        · exact le_of_lt h
        · exact le_of_eq h.1
      · rename_i hc
        push_neg at hc
        exact ⟨le_refl _, hc.1⟩
    refine ⟨le_trans ih1 hx'le.1, ?_⟩
    intro y hy
    rcases List.mem_cons.mp hy with h | h
    · rw [h]
      exact le_trans ih1 hx'le.2
    · exact ih2 y h

theorem pqMin_fst_le (x : PQItem) (l : List PQItem) :
    ∀ y ∈ x :: l, (pqMin x l).1 ≤ y.1 := by
  intro y hy
  rcases List.mem_cons.mp hy with h | h
  · rw [h]
    exact (pqMin_fst_le_aux l x).1
  · exact (pqMin_fst_le_aux l x).2 y h

theorem popMin_eq_none {l : List PQItem} : popMin l = none ↔ l = [] := by
  cases l <;> simp [popMin]

theorem popMin_mem {l : List PQItem} {m : PQItem} {r : List PQItem}
    (h : popMin l = some (m, r)) : m ∈ l := by
  cases l with
  | nil => simp [popMin] at h
  | cons x xs =>
    simp [popMin] at h
    exact h.1 ▸ pqMin_mem x xs

theorem popMin_rest {l : List PQItem} {m : PQItem} {r : List PQItem}
    (h : popMin l = some (m, r)) : r = l.erase m := by
  cases l with
  | nil => simp [popMin] at h
  | cons x xs =>
    simp [popMin] at h
    rw [← h.1, ← h.2]

theorem popMin_fst_le {l : List PQItem} {m : PQItem} {r : List PQItem}
    (h : popMin l = some (m, r)) : ∀ y ∈ l, m.1 ≤ y.1 := by
  cases l with
  | nil => simp [popMin] at h
  | cons x xs =>
    simp [popMin] at h
    exact h.1 ▸ pqMin_fst_le x xs

theorem popMin_rest_subset {l : List PQItem} {m : PQItem} {r : List PQItem}
    (h : popMin l = some (m, r)) : ∀ x ∈ r, x ∈ l := by
  intro x hx
  rw [popMin_rest h] at hx
  exact List.erase_subset m l hx

theorem popMin_mem_rest_of_ne {l : List PQItem} {m x : PQItem} {r : List PQItem}
    (h : popMin l = some (m, r)) (hx : x ∈ l) (hne : x ≠ m) : x ∈ r := by
  rw [popMin_rest h]
  exact (List.mem_erase_of_ne hne).mpr hx

/-! Pointwise monotonicity of relaxation (no write ever increases a distance). -/

theorem relaxEdge_dist_le (u : Nat) (d : Int) (s : DState) (e : Edge) (v : Nat) :
    (relaxEdge u d s e).dist v ≤ s.dist v := by
  unfold relaxEdge
  split
  · rename_i hlt
    by_cases hv : v = e.to
    · subst hv
      simpa using le_of_lt hlt
    · simp [hv]
  · exact le_refl _

theorem relaxEdge_skip {u : Nat} {d : Int} {s : DState} {e : Edge}
    (h : ¬ (d + e.weight < s.dist e.to)) : relaxEdge u d s e = s := by
  simp [relaxEdge, h]

theorem relaxAll_dist_le (u : Nat) (d : Int) (s : DState) (es : List Edge) (v : Nat) :
    (relaxAll u d s es).dist v ≤ s.dist v := by
  induction es generalizing s with
  | nil => exact le_refl _
  | cons e es ih =>
    exact le_trans (ih (relaxEdge u d s e)) (relaxEdge_dist_le u d s e v)

theorem applyUpdate_dist_le (s : DState) (up : Update) (v : Nat) :
    (applyUpdate s up).dist v ≤ s.dist v := by
  unfold applyUpdate
  split
  · rename_i hlt
    by_cases hv : v = up.v
    · subst hv
      simpa using le_of_lt hlt
    · simp [hv]
  · exact le_refl _

/-! Equivalence of the parallel branch with in-order sequential relaxation. -/

theorem applyUpdate_eq_relaxEdge (u : Nat) (d : Int) (s : DState) (e : Edge) :
    applyUpdate s ⟨e.to, d + e.weight, u⟩ = relaxEdge u d s e := rfl

theorem candFold_eq_relaxAll (u : Nat) (d : Int) (dist0 : Nat → Int) :
    ∀ (es : List Edge) (s : DState), (∀ v, s.dist v ≤ dist0 v) →
      (candUpdates u d dist0 es).foldl applyUpdate s = relaxAll u d s es := by
  intro es
  induction es with
  | nil => intro s _; rfl
  | cons e es ih =>
    intro s hs
    by_cases hc : d + e.weight < dist0 e.to
    · have hcand : candUpdates u d dist0 (e :: es) =
          ⟨e.to, d + e.weight, u⟩ :: candUpdates u d dist0 es := by
        simp [candUpdates, hc]
      rw [hcand]
      show (candUpdates u d dist0 es).foldl applyUpdate (applyUpdate s ⟨e.to, d + e.weight, u⟩) = _
      rw [applyUpdate_eq_relaxEdge]
      have hs' : ∀ v, (relaxEdge u d s e).dist v ≤ dist0 v :=
        fun v => le_trans (relaxEdge_dist_le u d s e v) (hs v)
      exact ih (relaxEdge u d s e) hs'
    · have hcand : candUpdates u d dist0 (e :: es) = candUpdates u d dist0 es := by
        simp [candUpdates, hc]
      have hskip : relaxEdge u d s e = s := by
        unfold relaxEdge
        have : ¬ d + e.weight < s.dist e.to := by
          have := hs e.to
          omega
        simp [this]
      rw [hcand]
      show (candUpdates u d dist0 es).foldl applyUpdate s = relaxAll u d s (e :: es)
      have : relaxAll u d s (e :: es) = relaxAll u d (relaxEdge u d s e) es := rfl
      rw [this, hskip]
      exact ih s hs

theorem parRelax_eq_relaxAll (u : Nat) (d : Int) (s : DState) (es : List Edge) :
    parRelax u d s es = relaxAll u d s es :=
  candFold_eq_relaxAll u d s.dist es s (fun _ => le_refl _)

theorem parLoop_eq_seqLoop (g : Graph) : ∀ (fuel : Nat) (s : DState),
    parLoop g fuel s = seqLoop g fuel s := by
  intro fuel
  induction fuel with
  | zero => intro s; rfl
  | succ fuel ih =>
    intro s
    show parLoop g (fuel + 1) s = seqLoop g (fuel + 1) s
    unfold parLoop seqLoop
    cases hpop : popMin s.pq with
    | none => rfl
    | some p =>
      obtain ⟨⟨d, u⟩, rest⟩ := p
      by_cases hd : d = s.dist u
      · simp only [hd, if_pos rfl]
        by_cases hemp : (g u).isEmpty
        · have hnil : g u = [] := List.isEmpty_iff.mp hemp
          simp only [hemp, if_true]
          rw [ih]
          have : relaxAll u (s.dist u) { s with pq := rest } (g u) = { s with pq := rest } := by
            rw [hnil]; rfl
          rw [this]
        · simp only [hemp, Bool.false_eq_true, if_false]
          by_cases hlen : (g u).length < PARALLEL_THRESHOLD
          · simp only [hlen, if_true]
            exact ih _
          · simp only [hlen, if_false]
            rw [parRelax_eq_relaxAll]
            exact ih _
      · simp only [hd, if_false]
        exact ih _

theorem dijkstra_parallel_eq_sequential (g : Graph) (source : Nat) (fuel : Nat) :
    dijkstra_parallel g source fuel = dijkstra_sequential g source fuel :=
  parLoop_eq_seqLoop g fuel (initState source)

theorem walk_cast_cost {g : Graph} {a b : Nat} {c c' : Int} (h : Walk g a b c)
    (hc : c = c') : Walk g a b c' := hc ▸ h

theorem walk_nonneg {g : Graph} (hnn : Nonneg g) {a b : Nat} {c : Int}
    (h : Walk g a b c) : 0 ≤ c := by
  induction h with
  | nil u => exact le_refl 0
  | cons u e he hw ih => exact add_nonneg (hnn u e he) ih

theorem walk_snoc {g : Graph} {a b : Nat} {c : Int} (h : Walk g a b c)
    {e : Edge} (he : e ∈ g b) : Walk g a e.to (c + e.weight) := by
  induction h with
  | nil u => exact walk_cast_cost (Walk.cons u e he (Walk.nil e.to)) (by omega)
  | cons u e' he' hw ih => exact walk_cast_cost (Walk.cons u e' he' (ih he)) (by omega)

/-- Crossing lemma: a walk from inside a node set `S` to outside it contains an
edge leaving `S`, splitting the walk cost accordingly. -/
theorem walk_cross {g : Graph} {S : Nat → Prop} :
    ∀ {a v : Nat} {c : Int}, Walk g a v c → S a → ¬ S v →
      ∃ x e c1 c2, S x ∧ ¬ S e.to ∧ e ∈ g x ∧ Walk g a x c1 ∧ Walk g e.to v c2 ∧
        c = c1 + e.weight + c2 := by
  intro a v c h
  induction h with
  | nil u => intro hSa hSv; exact absurd hSa hSv
  | cons u e he hw ih =>
    intro hSu hSv
    by_cases hSt : S e.to
    · rcases ih hSt hSv with ⟨x, e', c1, c2, hSx, hnS, he', hw1, hw2, hceq⟩
      exact ⟨x, e', e.weight + c1, c2, hSx, hnS, he', Walk.cons u e he hw1, hw2, by omega⟩
    · rename_i t c0
      exact ⟨u, e, 0, c0, hSu, hSt, he, Walk.nil u, hw, by omega⟩

theorem natCast_ne_negOne (p : Nat) : (p : Int) ≠ -1 := by
  have := Int.natCast_nonneg p
  omega

theorem onChain_dist_le {par distF : Nat → Int}
    (hpe : ∀ v, par v ≠ -1 → ∃ p : Nat, par v = (p : Int) ∧ distF p ≤ distF v) :
    ∀ {a b : Nat}, OnChain par a b → distF b ≤ distF a := by
  intro a b h
  induction h with
  | refl v => exact le_refl _
  | step v p b hvp hpb ih =>
    have hne : par v ≠ -1 := by rw [hvp]; exact natCast_ne_negOne p
    rcases hpe v hne with ⟨p', hp', hle⟩
    have hpp : p = p' := by
      have : (p : Int) = (p' : Int) := by rw [← hvp, hp']
      exact_mod_cast this
    subst hpp
    exact le_trans ih hle

theorem terminates_update_of_not_onChain {par : Nat → Int} {w u : Nat} :
    ∀ {x : Nat}, Terminates par x → ¬ OnChain par x w →
      Terminates (fun y => if y = w then (u : Int) else par y) x := by
  intro x hx
  induction hx with
  | root v hv =>
    intro hnc
    have hvw : v ≠ w := fun h => hnc (h ▸ OnChain.refl v)
    exact Terminates.root v (by simp [hvw, hv])
  | step v p hvp hp ih =>
    intro hnc
    have hvw : v ≠ w := fun h => hnc (h ▸ OnChain.refl v)
    have hpw : ¬ OnChain par p w := fun h => hnc (OnChain.step v p w hvp h)
    exact Terminates.step v p (by simp [hvw, hvp]) (ih hpw)

theorem terminates_all_update {par : Nat → Int} {w u : Nat}
    (hall : ∀ v, Terminates par v) (hnc : ¬ OnChain par u w) :
    ∀ v, Terminates (fun y => if y = w then (u : Int) else par y) v := by
  have hw' : Terminates (fun y => if y = w then (u : Int) else par y) w :=
    Terminates.step w u (by simp) (terminates_update_of_not_onChain (hall u) hnc)
  have key : ∀ x, Terminates par x → Terminates (fun y => if y = w then (u : Int) else par y) x := by
    intro x hx
    induction hx with
    | root z hz =>
      by_cases hzw : z = w
      · exact hzw ▸ hw'
      · exact Terminates.root z (by simp [hzw, hz])
    | step z p hzp hp ih =>
      by_cases hzw : z = w
      · exact hzw ▸ hw'
      · exact Terminates.step z p (by simp [hzw, hzp]) ih
  exact fun v => key v (hall v)

theorem pathCost_cast_cost {g : Graph} {l : List Nat} {c c' : Int} (h : PathCost g l c)
    (hc : c = c') : PathCost g l c' := hc ▸ h

theorem pathCost_snoc {g : Graph} {l : List Nat} {c : Int} (h : PathCost g l c) :
    ∀ {p : Nat} {e : Edge}, l.getLast? = some p → e ∈ g p →
      PathCost g (l ++ [e.to]) (c + e.weight) := by
  induction h with
  | single v =>
    intro p e hlast he
    have hpv : p = v := by simpa using hlast.symm
    subst hpv
    exact pathCost_cast_cost (PathCost.cons p e.to [] e 0 he rfl (PathCost.single e.to)) (by omega)
  | cons u v rest e' c he' hto hp ih =>
    intro p e hlast he
    have hlast' : (v :: rest).getLast? = some p := by
      rw [← hlast]
      exact (List.getLast?_cons_cons).symm
    exact pathCost_cast_cost
      (PathCost.cons u v (rest ++ [e.to]) e' (c + e.weight) he' hto (ih hlast' he)) (by omega)

/-! Loop invariant of the main loop.  `S` is the settled region: the set of
nodes already popped with a matching (hence final) distance. -/

theorem INF_eq : INF = 2305843009213693951 := by decide

theorem INF_pos : 0 < INF := by rw [INF_eq]; omega

theorem dist_le_INF {g : Graph} {src : Nat} {S : Nat → Prop} {st : DState}
    (hinv : InvNR g src S st) (v : Nat) : st.dist v ≤ INF := by
  rcases hinv.valid v with h | ⟨c, _, hEq, hlt⟩
  · omega
  · omega

theorem parEdge_dist_le {g : Graph} {src : Nat} {S : Nat → Prop} {st : DState}
    (hnn : Nonneg g) (hinv : InvNR g src S st) :
    ∀ v, st.parent v ≠ -1 → ∃ p : Nat, st.parent v = (p : Int) ∧ st.dist p ≤ st.dist v := by
  intro v hv
  rcases hinv.parEdge v hv with ⟨p, hpeq, e, he, _, hle, _⟩
  have := hnn p e he
  exact ⟨p, hpeq, by omega⟩

theorem relaxEdge_pres {g : Graph} {src : Nat} {S : Nat → Prop} {u : Nat} {d : Int}
    {st : DState} {e : Edge}
    (hnn : Nonneg g) (hSu : S u) (hwu : Walk g src u d) (_hdINF : d < INF)
    (he : e ∈ g u) (hinv : InvNR g src S st) (hdu : st.dist u = d) :
    InvNR g src S (relaxEdge u d st e) ∧
      (∀ x, S x → (relaxEdge u d st e).dist x = st.dist x) := by
  by_cases hc : d + e.weight < st.dist e.to
  case neg =>
    have hskip : relaxEdge u d st e = st := by simp [relaxEdge, hc]
    rw [hskip]
    exact ⟨hinv, fun x _ => rfl⟩
  case pos =>
  have hwnd : Walk g src e.to (d + e.weight) := walk_snoc hwu he
  have hwt0 : 0 ≤ e.weight := hnn u e he
  have hd0 : 0 ≤ d := walk_nonneg hnn hwu
  have hdle : st.dist e.to ≤ INF := dist_le_INF hinv e.to
  have hndINF : d + e.weight < INF := by omega
  have hnotS : ¬ S e.to := fun hS => absurd hc (not_lt.mpr (hinv.settledOpt e.to hS _ hwnd))
  have hneu : e.to ≠ u := fun h => hnotS (by rw [h]; exact hSu)
  have hnesrc : e.to ≠ src := by
    intro h
    rw [h, hinv.src0] at hc
    omega
  have hst' : relaxEdge u d st e =
      { pq := (d + e.weight, e.to) :: st.pq
        dist := fun v => if v = e.to then d + e.weight else st.dist v
        parent := fun v => if v = e.to then (u : Int) else st.parent v } := by
    simp [relaxEdge, hc]
  rw [hst']
  have hmono : ∀ v, (if v = e.to then d + e.weight else st.dist v) ≤ st.dist v := by
    intro v
    by_cases hv : v = e.to
    · rw [if_pos hv, hv]; omega
    · rw [if_neg hv]
  refine ⟨⟨?_, ?_, ?_, ?_, ?_, ?_, ?_, ?_, ?_, ?_⟩, ?_⟩
  · -- valid
    intro v
    by_cases hv : v = e.to
    · right
      exact ⟨d + e.weight, by rw [hv]; exact hwnd, by simp [hv], hndINF⟩
    · rcases hinv.valid v with h | ⟨c, hw, hEq, hlt⟩
      · left; simpa [hv] using h
      · right; exact ⟨c, hw, by simpa [hv] using hEq, hlt⟩
  · -- qvalid
    intro p hp
    rcases List.mem_cons.mp hp with h | h
    · rw [h]
      exact ⟨d + e.weight, hwnd, rfl, hndINF, by simp⟩
    · rcases hinv.qvalid p h with ⟨c, hw, hEq, hlt, hle⟩
      exact ⟨c, hw, hEq, hlt, le_trans (hmono p.2) hle⟩
  · -- src0
    show (if src = e.to then _ else st.dist src) = 0
    rw [if_neg (fun h => hnesrc h.symm)]
    exact hinv.src0
  · -- srcpar
    show (if src = e.to then _ else st.parent src) = -1
    rw [if_neg (fun h => hnesrc h.symm)]
    exact hinv.srcpar
  · -- settledOpt
    intro x hx c hw
    show (if x = e.to then _ else st.dist x) ≤ c
    rw [if_neg (fun h => hnotS (by rw [← h]; exact hx))]
    exact hinv.settledOpt x hx c hw
  · -- settledFin
    intro x hx
    show (if x = e.to then _ else st.dist x) < INF
    rw [if_neg (fun h => hnotS (by rw [← h]; exact hx))]
    exact hinv.settledFin x hx
  · -- frontier
    intro v hv hfin
    by_cases hveq : v = e.to
    · subst hveq
      simp
    · right
      show (_, v) ∈ st.pq
      have hfin' : st.dist v < INF := by
        revert hfin
        show (if v = e.to then _ else st.dist v) < INF → _
        rw [if_neg hveq]
        exact id
      have := hinv.frontier v hv hfin'
      show ((if v = e.to then d + e.weight else st.dist v), v) ∈ st.pq
      rw [if_neg hveq]
      exact this
  · -- parNone
    intro v hpar
    by_cases hveq : v = e.to
    · exfalso
      revert hpar
      show (if v = e.to then ((u : Nat) : Int) else st.parent v) = -1 → False
      rw [if_pos hveq]
      exact natCast_ne_negOne u
    · revert hpar
      show (if v = e.to then ((u : Nat) : Int) else st.parent v) = -1 → _
      rw [if_neg hveq]
      intro hpar
      rcases hinv.parNone v hpar with h | h
      · exact Or.inl h
      · right
        show (if v = e.to then _ else st.dist v) = INF
        rw [if_neg hveq]
        exact h
  · -- parEdge
    intro v hpar
    by_cases hveq : v = e.to
    · refine ⟨u, ?_, e, he, hveq.symm, ?_, ?_⟩
      · show (if v = e.to then ((u : Nat) : Int) else st.parent v) = ((u : Nat) : Int)
        rw [if_pos hveq]
      · show (if u = e.to then _ else st.dist u) + e.weight ≤ if v = e.to then _ else st.dist v
        rw [if_neg (fun h => hneu h.symm), if_pos hveq, hdu]
      · show (if v = e.to then d + e.weight else st.dist v) < INF
        rw [if_pos hveq]
        exact hndINF
    · have hpar' : st.parent v ≠ -1 := by
        revert hpar
        show (if v = e.to then _ else st.parent v) ≠ -1 → _
        rw [if_neg hveq]
        exact id
      rcases hinv.parEdge v hpar' with ⟨p, hpeq, e', he', hto', hle', hfin'⟩
      refine ⟨p, ?_, e', he', hto', ?_, ?_⟩
      · show (if v = e.to then _ else st.parent v) = (p : Int)
        rw [if_neg hveq]
        exact hpeq
      · show (if p = e.to then _ else st.dist p) + e'.weight ≤ if v = e.to then _ else st.dist v
        rw [if_neg hveq]
        exact le_trans (add_le_add_right (hmono p) _) hle'
      · show (if v = e.to then _ else st.dist v) < INF
        rw [if_neg hveq]
        exact hfin'
  · -- parAcc
    have hnc : ¬ OnChain st.parent u e.to := by
      intro honc
      have hchain := onChain_dist_le (parEdge_dist_le hnn hinv) honc
      rw [hdu] at hchain
      omega
    exact terminates_all_update hinv.parAcc hnc
  · -- settled distances untouched
    intro x hx
    show (if x = e.to then _ else st.dist x) = st.dist x
    rw [if_neg (fun h => hnotS (by rw [← h]; exact hx))]

theorem relaxAll_pres {g : Graph} {src : Nat} {S : Nat → Prop} {u : Nat} {d : Int}
    (hnn : Nonneg g) (hSu : S u) (hwu : Walk g src u d) (hdINF : d < INF) :
    ∀ (es : List Edge), (∀ e ∈ es, e ∈ g u) → ∀ (st : DState),
      InvNR g src S st → st.dist u = d →
      InvNR g src S (relaxAll u d st es) ∧
        (∀ x, S x → (relaxAll u d st es).dist x = st.dist x) := by
  intro es
  induction es with
  | nil => intro _ st hinv _; exact ⟨hinv, fun _ _ => rfl⟩
  | cons e es ih =>
    intro hsub st hinv hdu
    have h1 := relaxEdge_pres hnn hSu hwu hdINF (hsub e (by simp)) hinv hdu
    have hdu' : (relaxEdge u d st e).dist u = d := by rw [h1.2 u hSu]; exact hdu
    have h2 := ih (fun e' he' => hsub e' (by simp [he'])) (relaxEdge u d st e) h1.1 hdu'
    have hstep : relaxAll u d st (e :: es) = relaxAll u d (relaxEdge u d st e) es := rfl
    rw [hstep]
    exact ⟨h2.1, fun x hx => by rw [h2.2 x hx, h1.2 x hx]⟩

theorem relaxAll_relaxed {u : Nat} {d : Int} :
    ∀ (es : List Edge) (st : DState), ∀ e ∈ es,
      (relaxAll u d st es).dist e.to ≤ d + e.weight := by
  intro es
  induction es with
  | nil => intro st e he; simp at he
  | cons e' es ih =>
    intro st e he
    have hstep : relaxAll u d st (e' :: es) = relaxAll u d (relaxEdge u d st e') es := rfl
    rcases List.mem_cons.mp he with h | h
    · rw [h, hstep]
      have h1 : (relaxEdge u d st e').dist e'.to ≤ d + e'.weight := by
        unfold relaxEdge
        split
        · simp
        · rename_i hcc
          simpa using not_lt.mp hcc
      exact le_trans (relaxAll_dist_le u d _ es e'.to) h1
    · rw [hstep]
      exact ih _ e h

/-! Preservation of the invariant across one loop iteration. -/

theorem inv_stale {g : Graph} {src : Nat} {S : Nat → Prop} {st : DState}
    {d : Int} {u : Nat} {rest : List PQItem} (hinv : Inv g src S st)
    (hpop : popMin st.pq = some ((d, u), rest)) (hne : d ≠ st.dist u) :
    Inv g src S { st with pq := rest } := by
  refine ⟨⟨hinv.valid, ?_, hinv.src0, hinv.srcpar, hinv.settledOpt, hinv.settledFin, ?_,
    hinv.parNone, hinv.parEdge, hinv.parAcc⟩, hinv.settledRelax⟩
  · intro p hp
    exact hinv.qvalid p (popMin_rest_subset hpop p hp)
  · intro v hv hfin
    have hmem := hinv.frontier v hv hfin
    refine popMin_mem_rest_of_ne hpop hmem ?_
    intro heq
    have h1 : st.dist v = d := congrArg Prod.fst heq
    have h2 : v = u := congrArg Prod.snd heq
    rw [h2] at h1
    exact hne h1.symm

theorem inv_relax {g : Graph} {src : Nat} {S : Nat → Prop} {st : DState}
    {d : Int} {u : Nat} {rest : List PQItem} (hnn : Nonneg g) (hinv : Inv g src S st)
    (hpop : popMin st.pq = some ((d, u), rest)) (hd : d = st.dist u) :
    Inv g src (fun v => S v ∨ v = u) (relaxAll u d { st with pq := rest } (g u)) := by
  obtain ⟨c, hwc, hdc, hcINF, _⟩ := hinv.qvalid (d, u) (popMin_mem hpop)
  have hwu : Walk g src u d := by
    show Walk g src u d
    have : d = c := hdc
    rw [this]
    exact hwc
  have hdINF : d < INF := by
    have : d = c := hdc
    omega
  have hgreedy : ∀ c', Walk g src u c' → d ≤ c' := by
    intro c' hw'
    by_cases hSu : S u
    · rw [hd]
      exact hinv.settledOpt u hSu c' hw'
    · by_cases hc' : c' < INF
      · by_cases hSsrc : S src
        · rcases walk_cross hw' hSsrc hSu with ⟨x, e, c1, c2, hSx, hnS, he, hw1, hw2, hceq⟩
          have h1 := hinv.settledRelax x hSx e he
          have h2 := hinv.settledOpt x hSx c1 hw1
          have h3 := walk_nonneg hnn hw2
          have h4 := hnn x e he
          have hyfin : st.dist e.to < INF := by omega
          have hmem := hinv.frontier e.to hnS hyfin
          have h5 : d ≤ st.dist e.to := popMin_fst_le hpop _ hmem
          omega
        · have hsfin : st.dist src < INF := by
            rw [hinv.src0]
            exact INF_pos
          have hmem := hinv.frontier src hSsrc hsfin
          have h5 : d ≤ st.dist src := popMin_fst_le hpop _ hmem
          rw [hinv.src0] at h5
          have h6 := walk_nonneg hnn hw'
          omega
      · omega
  have hinv0 : InvNR g src (fun v => S v ∨ v = u) { st with pq := rest } := by
    refine ⟨hinv.valid, ?_, hinv.src0, hinv.srcpar, ?_, ?_, ?_,
      hinv.parNone, hinv.parEdge, hinv.parAcc⟩
    · intro p hp
      exact hinv.qvalid p (popMin_rest_subset hpop p hp)
    · intro x hx cx hwx
      rcases hx with hx | rfl
      · exact hinv.settledOpt x hx cx hwx
      · show st.dist x ≤ cx
        rw [← hd]
        exact hgreedy cx hwx
    · intro x hx
      rcases hx with hx | rfl
      · exact hinv.settledFin x hx
      · show st.dist x < INF
        rw [← hd]
        exact hdINF
    · intro v hv hfin
      push_neg at hv
      have hmem := hinv.frontier v hv.1 hfin
      refine popMin_mem_rest_of_ne hpop hmem ?_
      intro heq
      exact hv.2 (congrArg Prod.snd heq)
  have hdu0 : ({ st with pq := rest } : DState).dist u = d := hd.symm
  have hres := relaxAll_pres hnn (Or.inr rfl) hwu hdINF (g u) (fun e he => he)
    { st with pq := rest } hinv0 hdu0
  refine ⟨hres.1, ?_⟩
  intro x hx e' he'
  have hconstx := hres.2 x hx
  rcases hx with hx | hxu
  · have hold := hinv.settledRelax x hx e' he'
    have hmono := relaxAll_dist_le u d { st with pq := rest } (g u) e'.to
    rw [hconstx]
    exact le_trans hmono hold
  · rw [hxu] at hconstx he' ⊢
    have hrel := relaxAll_relaxed (u := u) (d := d) (g u) { st with pq := rest } e' he'
    rw [hconstx, hdu0]
    exact hrel

/-! The invariant at initialization and its consequences at termination. -/

theorem inv_init (g : Graph) (src : Nat) : Inv g src (fun _ => False) (initState src) := by
  refine ⟨⟨?_, ?_, ?_, ?_, ?_, ?_, ?_, ?_, ?_, ?_⟩, ?_⟩
  · intro v
    by_cases hv : v = src
    · right
      exact ⟨0, by rw [hv]; exact Walk.nil src, by simp [initState, hv], INF_pos⟩
    · left
      simp [initState, hv]
  · intro p hp
    simp only [initState, List.mem_singleton] at hp
    rw [hp]
    exact ⟨0, Walk.nil src, rfl, INF_pos, by simp [initState]⟩
  · simp [initState]
  · simp [initState]
  · intro x hx
    exact hx.elim
  · intro x hx
    exact hx.elim
  · intro v _ hfin
    by_cases hv : v = src
    · simp [initState, hv]
    · exfalso
      have : (initState src).dist v = INF := by simp [initState, hv]
      rw [this] at hfin
      omega
  · intro v _
    by_cases hv : v = src
    · exact Or.inl hv
    · right
      simp [initState, hv]
  · intro v h
    exfalso
    exact h rfl
  · intro v
    exact Terminates.root v rfl
  · intro x hx
    exact hx.elim

theorem inv_settled_of_empty {g : Graph} {src : Nat} {S : Nat → Prop} {st : DState}
    (hinv : Inv g src S st) (hemp : st.pq = []) :
    ∀ v, st.dist v < INF → S v := by
  intro v hfin
  by_contra hS
  have hmem := hinv.frontier v hS hfin
  rw [hemp] at hmem
  simp at hmem

theorem inv_final {g : Graph} {src : Nat} {S : Nat → Prop} {st : DState}
    (hnn : Nonneg g) (hinv : Inv g src S st) (hemp : st.pq = []) :
    (∀ v, ¬ Reachable g src v → st.dist v = INF) ∧
      (∀ v dv, IsShortest g src v dv → dv < INF → st.dist v = dv) ∧
      (∀ v dv, IsShortest g src v dv → INF ≤ dv → st.dist v = INF) := by
  have hsettled := inv_settled_of_empty hinv hemp
  have hSsrc : S src := hsettled src (by rw [hinv.src0]; exact INF_pos)
  refine ⟨?_, ?_, ?_⟩
  · intro v hr
    rcases hinv.valid v with h | ⟨c, hw, _, _⟩
    · exact h
    · exact absurd ⟨c, hw⟩ hr
  · intro v dv hs hfin
    by_cases hSv : S v
    · have h1 := hinv.settledOpt v hSv dv hs.1
      rcases hinv.valid v with h | ⟨c, hw, hEq, hlt⟩
      · rw [h] at h1
        omega
      · have h2 := hs.2 c hw
        omega
    · exfalso
      rcases walk_cross hs.1 hSsrc hSv with ⟨x, e, c1, c2, hSx, hnS, he, hw1, hw2, hceq⟩
      have h1 := hinv.settledRelax x hSx e he
      have h2 := hinv.settledOpt x hSx c1 hw1
      have h3 := walk_nonneg hnn hw2
      have h4 := hnn x e he
      have hyfin : st.dist e.to < INF := by omega
      exact hnS (hsettled e.to hyfin)
  · intro v dv hs hfin
    rcases hinv.valid v with h | ⟨c, hw, hEq, hlt⟩
    · exact h
    · have := hs.2 c hw
      omega

/-! Running the loop preserves the invariant up to the empty queue. -/

theorem seqLoop_zero (g : Graph) (st : DState) :
    seqLoop g 0 st = match popMin st.pq with
      | none => some (st.dist, st.parent)
      | some _ => none := rfl

theorem seqLoop_succ (g : Graph) (fuel : Nat) (st : DState) :
    seqLoop g (fuel + 1) st = match popMin st.pq with
      | none => some (st.dist, st.parent)
      | some ((d, u), rest) =>
        if d = st.dist u then seqLoop g fuel (relaxAll u d { st with pq := rest } (g u))
        else seqLoop g fuel { st with pq := rest } := rfl

theorem seqLoop_inv {g : Graph} {src : Nat} (hnn : Nonneg g) :
    ∀ (fuel : Nat) (st : DState) (S : Nat → Prop) (res : DResult),
      Inv g src S st → seqLoop g fuel st = some res →
      ∃ (S' : Nat → Prop) (st' : DState),
        Inv g src S' st' ∧ st'.pq = [] ∧ st'.dist = res.1 ∧ st'.parent = res.2 := by
  intro fuel
  induction fuel with
  | zero =>
    intro st S res hinv hrun
    rw [seqLoop_zero] at hrun
    cases hpop : popMin st.pq with
    | none =>
      rw [hpop] at hrun
      have hres : (st.dist, st.parent) = res := Option.some.inj hrun
      exact ⟨S, st, hinv, popMin_eq_none.mp hpop, congrArg Prod.fst hres,
        congrArg Prod.snd hres⟩
    | some p =>
      rw [hpop] at hrun
      exact Option.noConfusion hrun
  | succ fuel ih =>
    intro st S res hinv hrun
    rw [seqLoop_succ] at hrun
    cases hpop : popMin st.pq with
    | none =>
      rw [hpop] at hrun
      have hres : (st.dist, st.parent) = res := Option.some.inj hrun
      exact ⟨S, st, hinv, popMin_eq_none.mp hpop, congrArg Prod.fst hres,
        congrArg Prod.snd hres⟩
    | some p =>
      obtain ⟨⟨d, u⟩, rest⟩ := p
      rw [hpop] at hrun
      have hrun' : (if d = st.dist u then
            seqLoop g fuel (relaxAll u d { st with pq := rest } (g u))
          else seqLoop g fuel { st with pq := rest }) = some res := hrun
      by_cases hd : d = st.dist u
      · rw [if_pos hd] at hrun'
        exact ih _ _ res (inv_relax hnn hinv hpop hd) hrun'
      · rw [if_neg hd] at hrun'
        exact ih _ _ res (inv_stale hinv hpop hd) hrun'

/-! Path reconstruction from the final state: the backward parent walk
terminates at the source and its edge weights sum to the final distance. -/

theorem backtrack_of_terminates {g : Graph} {src : Nat} {S : Nat → Prop} {st : DState}
    (hnn : Nonneg g) (hinv : Inv g src S st)
    (hsettled : ∀ v, st.dist v < INF → S v) :
    ∀ v : Nat, Terminates st.parent v → st.dist v < INF →
      ∃ (l : List Nat) (fl : Nat),
        backtrack st.parent fl ((v : Nat) : Int) = some ((v :: l).map fun n => (n : Int)) ∧
        (v :: l).getLast? = some src ∧
        PathCost g ((v :: l).reverse) (st.dist v) := by
  intro v hterm
  induction hterm with
  | root w hw =>
    intro hfin
    have hwsrc : w = src := by
      rcases hinv.parNone w hw with h | h
      · exact h
      · omega
    refine ⟨[], 2, ?_, ?_, ?_⟩
    · show backtrack st.parent 2 (w : Int) = some [(w : Int)]
      rw [backtrack]
      rw [if_neg (natCast_ne_negOne w), if_pos (Int.natCast_nonneg w)]
      rw [Int.toNat_natCast, hw]
      rfl
    · rw [hwsrc]
      rfl
    · show PathCost g [w] (st.dist w)
      refine pathCost_cast_cost (PathCost.single w) ?_
      rw [hwsrc, hinv.src0]
  | step w p hwp hp ih =>
    intro hfin
    have hne : st.parent w ≠ -1 := by
      rw [hwp]
      exact natCast_ne_negOne p
    rcases hinv.parEdge w hne with ⟨p', hp'eq, e, he, hto, hle, _⟩
    have hpp : p' = p := by
      have : (p' : Int) = (p : Int) := by rw [← hp'eq, hwp]
      exact_mod_cast this
    subst hpp
    have hw0 : 0 ≤ e.weight := hnn p' e he
    have hpfin : st.dist p' < INF := by omega
    have hSp : S p' := hsettled p' hpfin
    have hrel := hinv.settledRelax p' hSp e he
    rw [hto] at hrel
    have hdEq : st.dist w = st.dist p' + e.weight := le_antisymm hrel hle
    rcases ih hpfin with ⟨l', fl', hbt, hlast, hpc⟩
    refine ⟨p' :: l', fl' + 1, ?_, ?_, ?_⟩
    · show backtrack st.parent (fl' + 1) (w : Int) = _
      rw [backtrack]
      rw [if_neg (natCast_ne_negOne w), if_pos (Int.natCast_nonneg w)]
      rw [Int.toNat_natCast, hwp, hbt]
      rfl
    · rw [List.getLast?_cons_cons]
      exact hlast
    · have hrev : (w :: p' :: l').reverse = (p' :: l').reverse ++ [w] :=
        List.reverse_cons w (p' :: l')
      rw [hrev]
      have hlast2 : ((p' :: l').reverse).getLast? = some p' := by
        rw [List.getLast?_reverse]
        rfl
      have hsnoc := pathCost_snoc hpc hlast2 he
      rw [hto] at hsnoc
      exact pathCost_cast_cost hsnoc hdEq.symm

/-! Endpoint facts of a completed sequential run. -/

theorem seqRun_final {g : Graph} {src : Nat} {fuel : Nat} {res : DResult}
    (hnn : Nonneg g) (hrun : dijkstra_sequential g src fuel = some res) :
    (∀ v, ¬ Reachable g src v → res.1 v = INF) ∧
      (∀ v dv, IsShortest g src v dv → dv < INF → res.1 v = dv) ∧
      (∀ v dv, IsShortest g src v dv → INF ≤ dv → res.1 v = INF) := by
  obtain ⟨S', st', hinv, hemp, hdist, _⟩ :=
    seqLoop_inv hnn fuel (initState src) (fun _ => False) res (inv_init g src) hrun
  have hfin := inv_final hnn hinv hemp
  rw [hdist] at hfin
  exact hfin

theorem seqRun_path {g : Graph} {src : Nat} {fuel : Nat} {res : DResult}
    (hnn : Nonneg g) (hrun : dijkstra_sequential g src fuel = some res)
    (t : Nat) (ht : res.1 t ≠ INF) :
    ∃ (l : List Nat) (fl : Nat),
      reconstructPath res.2 fl t = some (((t :: l).map fun n => (n : Int)).reverse) ∧
      ((t :: l).reverse).head? = some src ∧
      ((t :: l).reverse).getLast? = some t ∧
      PathCost g ((t :: l).reverse) (res.1 t) := by
  obtain ⟨S', st', hinv, hemp, hdist, hpar⟩ :=
    seqLoop_inv hnn fuel (initState src) (fun _ => False) res (inv_init g src) hrun
  have hsettled := inv_settled_of_empty hinv hemp
  have htfin : st'.dist t < INF := by
    have hle := dist_le_INF hinv.toInvNR t
    rw [hdist] at hle ⊢
    omega
  obtain ⟨l, fl, hbt, hlast, hpc⟩ :=
    backtrack_of_terminates hnn hinv hsettled t (hinv.parAcc t) htfin
  refine ⟨l, fl, ?_, ?_, ?_, ?_⟩
  · show (backtrack res.2 fl (t : Int)).map List.reverse = _
    rw [← hpar, hbt]
    rfl
  · rw [List.head?_reverse]
    exact hlast
  · rw [List.getLast?_reverse]
    rfl
  · rw [← hdist]
    exact hpc

theorem parStep_iff_seqStep (g : Graph) (s s' : DState) :
    ParStep g s s' ↔ SeqStep g s s' := by
  constructor
  · rintro ⟨d, u, rest, hpop, hcase⟩
    refine ⟨d, u, rest, hpop, ?_⟩
    rcases hcase with ⟨hne, hs'⟩ | ⟨hd, hcase⟩
    · exact Or.inl ⟨hne, hs'⟩
    · right
      refine ⟨hd, ?_⟩
      rcases hcase with ⟨hnil, hs'⟩ | ⟨_, _, hs'⟩ | ⟨_, _, hs'⟩
      · have hnil' : g u = [] := List.isEmpty_iff.mp hnil
        rw [hs', hnil']
        rfl
      · exact hs'
      · rw [hs', parRelax_eq_relaxAll]
  · rintro ⟨d, u, rest, hpop, hcase⟩
    refine ⟨d, u, rest, hpop, ?_⟩
    rcases hcase with ⟨hne, hs'⟩ | ⟨hd, hs'⟩
    · exact Or.inl ⟨hne, hs'⟩
    · right
      refine ⟨hd, ?_⟩
      by_cases hnil : (g u).isEmpty
      · left
        refine ⟨hnil, ?_⟩
        have hnil' : g u = [] := List.isEmpty_iff.mp hnil
        rw [hs', hnil']
        rfl
      · by_cases hlen : (g u).length < PARALLEL_THRESHOLD
        · exact Or.inr (Or.inl ⟨Bool.not_eq_true _ ▸ Bool.of_not_eq_true hnil, hlen, hs'⟩)
        · refine Or.inr (Or.inr ⟨Bool.of_not_eq_true hnil, hlen, ?_⟩)
          rw [hs', parRelax_eq_relaxAll]

theorem reachesPar_iff_seq (g : Graph) (src : Nat) (s : DState) :
    ReachesPar g src s ↔ ReachesSeq g src s := by
  constructor
  · intro h
    exact Relation.ReflTransGen.mono (fun a b hab => (parStep_iff_seqStep g a b).mp hab) h
  · intro h
    exact Relation.ReflTransGen.mono (fun a b hab => (parStep_iff_seqStep g a b).mpr hab) h

theorem relaxEdge_BInv {src u : Nat} {d : Int} {st : DState} {e : Edge}
    (hw : 0 ≤ e.weight) (hd : 0 ≤ d) (hb : BInv src st) :
    BInv src (relaxEdge u d st e) := by
  unfold relaxEdge
  split
  · rename_i hc
    constructor
    · show (if src = e.to then d + e.weight else st.dist src) = 0
      by_cases hsrc : src = e.to
      · exfalso
        rw [← hsrc, hb.1] at hc
        omega
      · rw [if_neg hsrc]
        exact hb.1
    · intro v
      show 0 ≤ (if v = e.to then d + e.weight else st.dist v) ∧
        (if v = e.to then d + e.weight else st.dist v) ≤ INF
      by_cases hv : v = e.to
      · rw [if_pos hv]
        have := (hb.2 e.to).2
        omega
      · rw [if_neg hv]
        exact hb.2 v
  · exact hb

theorem relaxAll_BInv {src u : Nat} {d : Int} (hd : 0 ≤ d) :
    ∀ (es : List Edge) (st : DState), (∀ e ∈ es, 0 ≤ e.weight) → BInv src st →
      BInv src (relaxAll u d st es) := by
  intro es
  induction es with
  | nil => intro st _ hb; exact hb
  | cons e es ih =>
    intro st hes hb
    have hstep : relaxAll u d st (e :: es) = relaxAll u d (relaxEdge u d st e) es := rfl
    rw [hstep]
    exact ih _ (fun e' he' => hes e' (by simp [he'])) (relaxEdge_BInv (hes e (by simp)) hd hb)

theorem applyUpdate_BInv {src : Nat} {st : DState} {up : Update}
    (hnd : 0 ≤ up.nd) (hb : BInv src st) : BInv src (applyUpdate st up) := by
  unfold applyUpdate
  split
  · rename_i hc
    constructor
    · show (if src = up.v then up.nd else st.dist src) = 0
      by_cases hsrc : src = up.v
      · exfalso
        rw [← hsrc, hb.1] at hc
        omega
      · rw [if_neg hsrc]
        exact hb.1
    · intro v
      show 0 ≤ (if v = up.v then up.nd else st.dist v) ∧
        (if v = up.v then up.nd else st.dist v) ≤ INF
      by_cases hv : v = up.v
      · rw [if_pos hv]
        have := (hb.2 up.v).2
        omega
      · rw [if_neg hv]
        exact hb.2 v
  · exact hb

theorem seqStep_BInv {g : Graph} {src : Nat} (hnn : Nonneg g) {s s' : DState}
    (hstep : SeqStep g s s') (hb : BInv src s) : BInv src s' := by
  obtain ⟨d, u, rest, hpop, hcase⟩ := hstep
  rcases hcase with ⟨_, hs'⟩ | ⟨hd, hs'⟩
  · rw [hs']
    exact hb
  · rw [hs']
    have hd0 : 0 ≤ d := by
      rw [hd]
      exact ((hb.2 u)).1
    exact relaxAll_BInv hd0 (g u) _ (fun e he => hnn u e he) hb

theorem binv_init (src : Nat) : BInv src (initState src) := by
  constructor
  · simp [initState]
  · intro v
    show 0 ≤ (if v = src then 0 else INF) ∧ (if v = src then 0 else INF) ≤ INF
    by_cases hv : v = src
    · rw [if_pos hv]
      exact ⟨le_refl 0, le_of_lt INF_pos⟩
    · rw [if_neg hv]
      exact ⟨le_of_lt INF_pos, le_refl INF⟩

theorem binv_reachesSeq {g : Graph} {src : Nat} (hnn : Nonneg g) {st : DState}
    (h : ReachesSeq g src st) : BInv src st := by
  induction h with
  | refl => exact binv_init src
  | tail hab hbc ih => exact seqStep_BInv hnn hbc ih

theorem binv_reachesPar {g : Graph} {src : Nat} (hnn : Nonneg g) {st : DState}
    (h : ReachesPar g src st) : BInv src st :=
  binv_reachesSeq hnn ((reachesPar_iff_seq g src st).mp h)

/-! Unfolding helpers for the loop. -/

theorem seqLoop_succ_pop {g : Graph} {fuel : Nat} {st : DState} {d : Int} {u : Nat}
    {rest : List PQItem} (hpop : popMin st.pq = some ((d, u), rest)) :
    seqLoop g (fuel + 1) st =
      if d = st.dist u then seqLoop g fuel (relaxAll u d { st with pq := rest } (g u))
      else seqLoop g fuel { st with pq := rest } := by
  rw [seqLoop_succ, hpop]

theorem seqLoop_empty (g : Graph) (fuel : Nat) (st : DState) (h : st.pq = []) :
    seqLoop g fuel st = some (st.dist, st.parent) := by
  cases fuel with
  | zero => rw [seqLoop_zero, h]; rfl
  | succ fuel => rw [seqLoop_succ, h]; rfl

theorem DState.mk_eq {p1 p2 : List PQItem} {d1 d2 par1 par2 : Nat → Int}
    (hp : p1 = p2) (hd : d1 = d2) (hpar : par1 = par2) :
    DState.mk p1 d1 par1 = DState.mk p2 d2 par2 := by
  rw [hp, hd, hpar]

theorem chainState_one : chainState 1 = initState 1 := by
  unfold chainState initState chainDist chainPar
  refine DState.mk_eq ?_ ?_ ?_
  · norm_num
  · funext v
    by_cases hv : v = 1
    · rw [hv]
      norm_num
    · have h1 : ¬ (1 ≤ v ∧ v ≤ 1) := by omega
      rw [if_neg h1, if_neg hv]
  · funext v
    have h1 : ¬ (2 ≤ v ∧ v ≤ 1) := by omega
    rw [if_neg h1]

theorem chainState_pop (k : Nat) :
    popMin (chainState k).pq = some ((((k : Int) - 1) * chainW, k), []) := by
  have h : popMin (chainState k).pq =
      some ((((k : Int) - 1) * chainW, k),
        [(((k : Int) - 1) * chainW, k)].erase (((k : Int) - 1) * chainW, k)) := rfl
  rw [h, List.erase_cons_head]

theorem chainDist_self (k : Nat) (hk : 1 ≤ k) :
    chainDist k k = ((k : Int) - 1) * chainW := by
  unfold chainDist
  rw [if_pos ⟨hk, le_refl k⟩]

theorem chainDist_next (k : Nat) : chainDist k (k + 1) = INF := by
  unfold chainDist
  have h1 : ¬ (1 ≤ k + 1 ∧ k + 1 ≤ k) := by omega
  rw [if_neg h1]

theorem chain_step (k : Nat) (hk1 : 1 ≤ k) (hkN : k < chainN) (fuel : Nat) :
    seqLoop gChain (fuel + 1) (chainState k) = seqLoop gChain fuel (chainState (k + 1)) := by
  rw [seqLoop_succ_pop (chainState_pop k)]
  have hguard : ((k : Int) - 1) * chainW = (chainState k).dist k := by
    show _ = chainDist k k
    rw [chainDist_self k hk1]
  rw [if_pos hguard]
  congr 1
  have hedges : gChain k = [⟨k + 1, chainW⟩] := by
    unfold gChain
    rw [if_pos ⟨hk1, le_of_lt hkN⟩]
  rw [hedges]
  show relaxEdge k (((k : Int) - 1) * chainW)
      { pq := [], dist := chainDist k, parent := chainPar k } ⟨k + 1, chainW⟩ =
    chainState (k + 1)
  have hcond : ((k : Int) - 1) * chainW + chainW < chainDist k (k + 1) := by
    rw [chainDist_next]
    have hkB : (k : Int) ≤ (chainN : Int) - 1 := by
      have : (k : Int) < (chainN : Int) := by exact_mod_cast hkN
      omega
    have hmul : (k : Int) * chainW ≤ ((chainN : Int) - 1) * chainW :=
      mul_le_mul_of_nonneg_right hkB (by unfold chainW; omega)
    have hlit : ((chainN : Int) - 1) * chainW < INF := by
      unfold chainN chainW
      rw [INF_eq]
      norm_num
    nlinarith [hmul, hlit]
  unfold relaxEdge
  rw [if_pos hcond]
  refine DState.mk_eq ?_ ?_ ?_
  · have : ((k : Int) - 1) * chainW + chainW = ((k : Int) + 1 - 1) * chainW := by ring
    rw [this]
    push_cast
    rfl
  · funext v
    show (if v = k + 1 then ((k : Int) - 1) * chainW + chainW else chainDist k v) =
      chainDist (k + 1) v
    by_cases hv : v = k + 1
    · rw [if_pos hv]
      unfold chainDist
      have h1 : 1 ≤ k + 1 ∧ k + 1 ≤ k + 1 := by omega
      rw [hv, if_pos h1]
      push_cast
      ring
    · rw [if_neg hv]
      unfold chainDist
      by_cases hv2 : 1 ≤ v ∧ v ≤ k
      · have h1 : 1 ≤ v ∧ v ≤ k + 1 := by omega
        rw [if_pos hv2, if_pos h1]
      · have h1 : ¬ (1 ≤ v ∧ v ≤ k + 1) := by omega
        rw [if_neg hv2, if_neg h1]
  · funext v
    show (if v = k + 1 then ((k : Nat) : Int) else chainPar k v) = chainPar (k + 1) v
    by_cases hv : v = k + 1
    · rw [if_pos hv]
      unfold chainPar
      have h1 : 2 ≤ k + 1 ∧ k + 1 ≤ k + 1 := by omega
      rw [hv, if_pos h1]
      push_cast
      ring
    · rw [if_neg hv]
      unfold chainPar
      by_cases hv2 : 2 ≤ v ∧ v ≤ k
      · have h1 : 2 ≤ v ∧ v ≤ k + 1 := by omega
        rw [if_pos hv2, if_pos h1]
      · have h1 : ¬ (2 ≤ v ∧ v ≤ k + 1) := by omega
        rw [if_neg hv2, if_neg h1]

theorem chain_last (fuel : Nat) :
    seqLoop gChain (fuel + 1) (chainState chainN) =
      some (chainDist chainN, chainPar chainN) := by
  rw [seqLoop_succ_pop (chainState_pop chainN)]
  have hN1 : 1 ≤ chainN := by unfold chainN; omega
  have hguard : ((chainN : Int) - 1) * chainW = (chainState chainN).dist chainN := by
    show _ = chainDist chainN chainN
    rw [chainDist_self chainN hN1]
  rw [if_pos hguard]
  have hedges : gChain chainN = [⟨chainN + 1, chainW⟩] := by
    unfold gChain
    rw [if_pos ⟨hN1, le_refl chainN⟩]
  rw [hedges]
  have hcond : ¬ (((chainN : Int) - 1) * chainW + chainW <
      chainDist chainN (chainN + 1)) := by
    rw [chainDist_next]
    have : ((chainN : Int) - 1) * chainW + chainW = (chainN : Int) * chainW := by ring
    rw [this]
    unfold chainN chainW
    rw [INF_eq]
    norm_num
  have hrelax : relaxAll chainN (((chainN : Int) - 1) * chainW)
      { chainState chainN with pq := [] } [⟨chainN + 1, chainW⟩] =
      { chainState chainN with pq := [] } := by
    show relaxEdge chainN (((chainN : Int) - 1) * chainW)
        { chainState chainN with pq := [] } ⟨chainN + 1, chainW⟩ = _
    exact relaxEdge_skip hcond
  rw [hrelax]
  exact seqLoop_empty gChain fuel _ rfl

theorem chain_run : ∀ (j k : Nat), 1 ≤ k → k + j = chainN →
    seqLoop gChain (j + 1) (chainState k) = some (chainDist chainN, chainPar chainN) := by
  intro j
  induction j with
  | zero =>
    intro k hk1 hkN
    have hk : k = chainN := by omega
    rw [hk]
    exact chain_last 0
  | succ j ih =>
    intro k hk1 hkN
    have hkN' : k < chainN := by omega
    rw [show j + 1 + 1 = (j + 1) + 1 from rfl, chain_step k hk1 hkN' (j + 1)]
    exact ih (k + 1) (by omega) (by omega)

theorem chain_result :
    dijkstra_sequential gChain 1 chainN = some (chainDist chainN, chainPar chainN) := by
  unfold dijkstra_sequential
  rw [← chainState_one]
  have h1 : 1 ≤ chainN := by unfold chainN; omega
  have hfuel : chainN = (chainN - 1) + 1 := by omega
  rw [hfuel]
  exact chain_run (chainN - 1) 1 (le_refl 1) (by omega)

theorem chain_nonneg : Nonneg gChain := by
  intro u e he
  unfold gChain at he
  by_cases hc : 1 ≤ u ∧ u ≤ chainN
  · rw [if_pos hc] at he
    simp only [List.mem_singleton] at he
    rw [he]
    show (0 : Int) ≤ chainW
    unfold chainW
    omega
  · rw [if_neg hc] at he
    simp at he

theorem chain_walk_cost : ∀ {u t : Nat} {c : Int}, Walk gChain u t c →
    c = ((t : Int) - (u : Int)) * chainW ∧ u ≤ t := by
  intro u t c h
  induction h with
  | nil u => exact ⟨by ring, le_refl u⟩
  | @cons t c u e he hw ih =>
    have hmem : 1 ≤ u ∧ u ≤ chainN ∧ e = ⟨u + 1, chainW⟩ := by
      unfold gChain at he
      by_cases hc : 1 ≤ u ∧ u ≤ chainN
      · rw [if_pos hc] at he
        simp only [List.mem_singleton] at he
        exact ⟨hc.1, hc.2, he⟩
      · rw [if_neg hc] at he
        simp at he
    obtain ⟨h1, h2, he'⟩ := hmem
    subst he'
    have ihc : c = ((t : Int) - ((u + 1 : Nat) : Int)) * chainW := ih.1
    have iht : u + 1 ≤ t := ih.2
    constructor
    · show chainW + c = ((t : Int) - (u : Int)) * chainW
      rw [ihc]
      push_cast
      ring
    · omega

theorem chain_walk_exists : ∀ (j k : Nat), 1 ≤ k → k + j = chainN + 1 →
    Walk gChain k (chainN + 1) ((j : Int) * chainW) := by
  intro j
  induction j with
  | zero =>
    intro k hk1 hk2
    have hk : k = chainN + 1 := by omega
    rw [hk]
    exact walk_cast_cost (Walk.nil (chainN + 1)) (by norm_num)
  | succ j ih =>
    intro k hk1 hk2
    have hk : k ≤ chainN := by omega
    have hedge : (⟨k + 1, chainW⟩ : Edge) ∈ gChain k := by
      unfold gChain
      rw [if_pos ⟨hk1, hk⟩]
      simp
    have hw := ih (k + 1) (by omega) (by omega)
    exact walk_cast_cost (Walk.cons k ⟨k + 1, chainW⟩ hedge hw) (by push_cast; ring)

theorem chain_shortest : IsShortest gChain 1 (chainN + 1) ((chainN : Int) * chainW) := by
  constructor
  · exact chain_walk_exists chainN 1 (le_refl 1) (by omega)
  · intro c hc
    have h := chain_walk_cost hc
    have hcc : c = (chainN : Int) * chainW := by
      rw [h.1]
      push_cast
      ring
    exact le_of_eq hcc.symm

theorem chain_dist_last : chainDist chainN (chainN + 1) = INF := chainDist_next chainN

theorem chain_INF_ne : INF ≠ (chainN : Int) * chainW := by
  rw [INF_eq]
  unfold chainN chainW
  norm_num

theorem processAll_ok : ∀ (ls : List GrLine) (st : GrState),
    linesOK ls st.graph.length → ∃ st', ls.foldlM processLine st = some st' := by
  intro ls
  induction ls with
  | nil => intro st _; exact ⟨st, rfl⟩
  | cons l ls ih =>
    intro st hok
    cases l with
    | comment =>
      have h : (GrLine.comment :: ls).foldlM processLine st = ls.foldlM processLine st := by
        rw [List.foldlM_cons]
        rfl
      rw [h]
      exact ih st hok
    | other =>
      have h : (GrLine.other :: ls).foldlM processLine st = ls.foldlM processLine st := by
        rw [List.foldlM_cons]
        rfl
      rw [h]
      exact ih st hok
    | problem n m =>
      obtain ⟨hn, hrest⟩ := hok
      have hline : processLine st (GrLine.problem n m) =
          some ⟨List.replicate (n + 1).toNat [], n⟩ := by
        show (if 0 ≤ n + 1 then some (⟨List.replicate (n + 1).toNat [], n⟩ : GrState)
          else none) = _
        rw [if_pos hn]
      have h : (GrLine.problem n m :: ls).foldlM processLine st =
          ls.foldlM processLine ⟨List.replicate (n + 1).toNat [], n⟩ := by
        rw [List.foldlM_cons, hline]
        rfl
      rw [h]
      apply ih
      show linesOK ls (List.replicate (n + 1).toNat ([] : List RawEdge)).length
      rw [List.length_replicate]
      exact hrest
    | arc u v w =>
      obtain ⟨⟨hu0, hulen⟩, hrest⟩ := hok
      have hline : processLine st (GrLine.arc u v w) =
          some ⟨st.graph.set u.toNat ((st.graph.getD u.toNat []) ++ [⟨v, w⟩]),
            st.n_nodes⟩ := by
        show (if 0 ≤ u ∧ u.toNat < st.graph.length then
            some (⟨st.graph.set u.toNat ((st.graph.getD u.toNat []) ++ [⟨v, w⟩]),
              st.n_nodes⟩ : GrState)
          else none) = _
        rw [if_pos ⟨hu0, hulen⟩]
      have h : (GrLine.arc u v w :: ls).foldlM processLine st =
          ls.foldlM processLine
            ⟨st.graph.set u.toNat ((st.graph.getD u.toNat []) ++ [⟨v, w⟩]),
              st.n_nodes⟩ := by
        rw [List.foldlM_cons, hline]
        rfl
      rw [h]
      apply ih
      show linesOK ls ((st.graph.set u.toNat ((st.graph.getD u.toNat []) ++ [⟨v, w⟩]))).length
      rw [List.length_set]
      exact hrest

theorem gEmpty_nonneg : Nonneg gEmpty := by
  intro u e he
  simp [gEmpty] at he

theorem gOne_nonneg : Nonneg gOne := by
  intro u e he
  unfold gOne at he
  by_cases hu : u = 1
  · rw [if_pos hu] at he
    simp only [List.mem_singleton] at he
    rw [he]
    decide
  · rw [if_neg hu] at he
    simp at he

theorem gOne_int_weights : ∀ u, ∀ e ∈ gOne u, e.weight ≤ 2147483647 := by
  intro u e he
  unfold gOne at he
  by_cases hu : u = 1
  · rw [if_pos hu] at he
    simp only [List.mem_singleton] at he
    rw [he]
    decide
  · rw [if_neg hu] at he
    simp at he

theorem gEmpty_unreachable : ¬ Reachable gEmpty 1 2 := by
  rintro ⟨c, hw⟩
  cases hw with
  | cons u e he hw => simp [gEmpty] at he

theorem gEmpty_shortest_self : IsShortest gEmpty 1 1 0 := by
  constructor
  · exact Walk.nil 1
  · intro c hw
    cases hw with
    | nil => exact le_refl 0
    | cons u e he hw => simp [gEmpty] at he

theorem seqStep_stale_frame {g : Graph} {s s' : DState} {d : Int} {u : Nat}
    {rest : List PQItem} (hstep : SeqStep g s s')
    (hpop : popMin s.pq = some ((d, u), rest)) (hne : d ≠ s.dist u) :
    s'.dist = s.dist ∧ s'.parent = s.parent ∧ s'.pq = rest := by
  obtain ⟨d', u', rest', hpop', hcase⟩ := hstep
  rw [hpop] at hpop'
  have h1 := Option.some.inj hpop'
  have hd : d = d' := congrArg (fun x => x.1.1) h1
  have hu : u = u' := congrArg (fun x => x.1.2) h1
  have hr : rest = rest' := congrArg (fun x => x.2) h1
  subst hd
  subst hu
  subst hr
  rcases hcase with ⟨_, hs'⟩ | ⟨hdd, _⟩
  · rw [hs']
    exact ⟨rfl, rfl, rfl⟩
  · exact absurd hdd hne

/-! Claim theorems. -/

/-- C1: for every graph, source and fuel, `dijkstra_parallel` and
`dijkstra_sequential` return identical results (identical distance arrays
and identical parent arrays, hence identical path weights); in particular an
edge list whose length equals `PARALLEL_THRESHOLD` (100) — which the code
sends through the parallel branch — produces exactly the same relaxation
result as the sequential branch. -/
theorem C1_strategy_equivalence :
    (∀ (g : Graph) (source fuel : Nat),
      dijkstra_parallel g source fuel = dijkstra_sequential g source fuel) ∧
    (∀ (u : Nat) (d : Int) (st : DState) (es : List Edge),
      es.length = PARALLEL_THRESHOLD → parRelax u d st es = relaxAll u d st es) :=
  ⟨dijkstra_parallel_eq_sequential,
   fun u d st es _ => parRelax_eq_relaxAll u d st es⟩

/-- C1 witness: the equivalence at a concrete graph, and the threshold-sized
edge list (exactly 100 edges) relaxed identically through both branches. -/
theorem C1_strategy_equivalence_witness :
    dijkstra_parallel gOne 1 3 = dijkstra_sequential gOne 1 3 ∧
    parRelax 1 0 (initState 1) (List.replicate PARALLEL_THRESHOLD ⟨2, 3⟩) =
      relaxAll 1 0 (initState 1) (List.replicate PARALLEL_THRESHOLD ⟨2, 3⟩) :=
  ⟨C1_strategy_equivalence.1 gOne 1 3,
   C1_strategy_equivalence.2 1 0 (initState 1) (List.replicate PARALLEL_THRESHOLD ⟨2, 3⟩) rfl⟩

/-- C2 counterexample: the claim "dist[v] equals the true shortest-path
distance for every reachable v" is false as stated.  On the chain graph
`gChain` (1073741825 edges of maximum int weight 2147483647, all weights
nonnegative) the run returns, node `chainN + 1` is reachable with true
shortest distance `chainN * chainW`, yet that distance is not below the
sentinel, the final relaxation test fails, and the returned distance is the
sentinel `INF ≠ chainN * chainW`. -/
theorem C2_counterexample :
    Nonneg gChain ∧
    dijkstra_sequential gChain 1 chainN = some (chainDist chainN, chainPar chainN) ∧
    Reachable gChain 1 (chainN + 1) ∧
    IsShortest gChain 1 (chainN + 1) ((chainN : Int) * chainW) ∧
    chainDist chainN (chainN + 1) = INF ∧
    (chainN : Int) * chainW ≠ INF :=
  ⟨chain_nonneg, chain_result, ⟨(chainN : Int) * chainW, chain_shortest.1⟩,
   chain_shortest, chain_dist_last, Ne.symm chain_INF_ne⟩

/-- C2 (amended): when `dijkstra_sequential` returns on a graph with
nonnegative weights, `dist[v]` is the true shortest-path distance for every
node `v` whose shortest distance is below the sentinel `INF`; unreachable
nodes keep the sentinel, and reachable nodes whose shortest distance is at
least the sentinel also keep the sentinel. -/
theorem C2_shortest_distances {g : Graph} {src fuel : Nat} {res : DResult}
    (hnn : Nonneg g) (hrun : dijkstra_sequential g src fuel = some res) :
    (∀ v, ¬ Reachable g src v → res.1 v = INF) ∧
    (∀ v dv, IsShortest g src v dv → dv < INF → res.1 v = dv) ∧
    (∀ v dv, IsShortest g src v dv → INF ≤ dv → res.1 v = INF) :=
  seqRun_final hnn hrun

/-- C2 witness: on the edgeless graph from source `1`, the run returns, the
unreachable node `2` ends at the sentinel and the source ends at its
shortest distance `0`. -/
theorem C2_shortest_distances_witness :
    (initState 1).dist 2 = INF ∧ (initState 1).dist 1 = 0 :=
  ⟨(C2_shortest_distances gEmpty_nonneg
      (rfl : dijkstra_sequential gEmpty 1 2 =
        some ((initState 1).dist, (initState 1).parent))).1 2 gEmpty_unreachable,
   (C2_shortest_distances gEmpty_nonneg
      (rfl : dijkstra_sequential gEmpty 1 2 =
        some ((initState 1).dist, (initState 1).parent))).2.1 1 0
      gEmpty_shortest_self INF_pos⟩

/-- C3: the reader does not reject an arc record whose endpoint lies outside
the declared range `[1, n_nodes]`: with 2 declared nodes, the arc `a 1 9 7`
(head node `9`) is stored unchecked and `read_dimacs_gr` returns `true`, so
the error would only surface mid-algorithm, contradicting the spec's demand
that construction fail first. -/
theorem C3_out_of_range_arc_accepted :
    read_dimacs_gr (some [GrLine.problem 2 1, GrLine.arc 1 9 7]) =
      some (true, ⟨[[], [⟨9, 7⟩], []], 2⟩) := by
  decide

/-- C4: the reader does not reject negative edge weights: with 2 declared
nodes, the arc `a 1 2 -5` is stored and `read_dimacs_gr` returns `true`,
after which `main` runs both Dijkstra routines on the graph. -/
theorem C4_negative_weight_accepted :
    read_dimacs_gr (some [GrLine.problem 2 1, GrLine.arc 1 2 (-5)]) =
      some (true, ⟨[[], [⟨2, -5⟩], []], 2⟩) := by
  decide

/-- C5: for every target with a non-sentinel final distance, walking parent
links backward until `-1` and reversing yields a node sequence from the
source to the target whose edge weights sum exactly to `dist[target]`
(weights are nonnegative per the spec's data model). -/
theorem C5_path_reconstruction {g : Graph} {src fuel : Nat} {res : DResult}
    (hnn : Nonneg g) (hrun : dijkstra_sequential g src fuel = some res)
    (t : Nat) (ht : res.1 t ≠ INF) :
    ∃ (l : List Nat) (fl : Nat),
      reconstructPath res.2 fl t = some (((t :: l).map fun n => (n : Int)).reverse) ∧
      ((t :: l).reverse).head? = some src ∧
      ((t :: l).reverse).getLast? = some t ∧
      PathCost g ((t :: l).reverse) (res.1 t) :=
  seqRun_path hnn hrun t ht

/-- C5 witness: on the one-edge graph `1 → 2` the reconstruction from target
`2` is defined and sums to the final distance. -/
theorem C5_path_reconstruction_witness :
    ∃ (l : List Nat) (fl : Nat),
      reconstructPath resOne.2 fl 2 = some (((2 :: l).map fun n => (n : Int)).reverse) ∧
      ((2 :: l).reverse).head? = some 1 ∧
      ((2 :: l).reverse).getLast? = some 2 ∧
      PathCost gOne ((2 :: l).reverse) (resOne.1 2) :=
  C5_path_reconstruction gOne_nonneg
    (rfl : dijkstra_sequential gOne 1 3 = some resOne) 2 (by decide)

/-- C6: distances never increase at any intermediate point of either run:
every single write (sequential `relaxEdge`, parallel `applyUpdate`) leaves
each `dist[v]` less than or equal to its old value, a changed value is
strictly smaller, and each full loop iteration of either routine is
pointwise nonincreasing on `dist`. -/
theorem C6_monotone_decrease :
    (∀ (u : Nat) (d : Int) (st : DState) (e : Edge) (v : Nat),
      (relaxEdge u d st e).dist v ≤ st.dist v) ∧
    (∀ (st : DState) (up : Update) (v : Nat),
      (applyUpdate st up).dist v ≤ st.dist v) ∧
    (∀ (u : Nat) (d : Int) (st : DState) (e : Edge) (v : Nat),
      (relaxEdge u d st e).dist v ≠ st.dist v → (relaxEdge u d st e).dist v < st.dist v) ∧
    (∀ (st : DState) (up : Update) (v : Nat),
      (applyUpdate st up).dist v ≠ st.dist v → (applyUpdate st up).dist v < st.dist v) ∧
    (∀ (g : Graph) (s s' : DState), SeqStep g s s' → ∀ v, s'.dist v ≤ s.dist v) ∧
    (∀ (g : Graph) (s s' : DState), ParStep g s s' → ∀ v, s'.dist v ≤ s.dist v) := by
  have hseq : ∀ (g : Graph) (s s' : DState), SeqStep g s s' → ∀ v, s'.dist v ≤ s.dist v := by
    rintro g s s' ⟨d, u, rest, hpop, hcase⟩ v
    rcases hcase with ⟨_, hs'⟩ | ⟨_, hs'⟩
    · rw [hs']
    · rw [hs']
      exact relaxAll_dist_le u d { s with pq := rest } (g u) v
  refine ⟨relaxEdge_dist_le, applyUpdate_dist_le, ?_, ?_, hseq, ?_⟩
  · intro u d st e v hne
    exact lt_of_le_of_ne (relaxEdge_dist_le u d st e v) hne
  · intro st up v hne
    exact lt_of_le_of_ne (applyUpdate_dist_le st up v) hne
  · intro g s s' hstep v
    exact hseq g s s' ((parStep_iff_seqStep g s s').mp hstep) v

/-- C6 witness: a concrete strict-decrease write, and concrete sequential and
parallel loop iterations that are pointwise nonincreasing. -/
theorem C6_monotone_decrease_witness :
    ((relaxEdge 1 0 (initState 2) ⟨3, 4⟩).dist 3 < (initState 2).dist 3) ∧
    ((applyUpdate (initState 2) ⟨3, 4, 1⟩).dist 3 < (initState 2).dist 3) ∧
    ((relaxAll 1 0 { initState 1 with pq := [] } (gEmpty 1)).dist 1 ≤ (initState 1).dist 1) ∧
    ((({ initState 1 with pq := [] } : DState)).dist 1 ≤ (initState 1).dist 1) :=
  ⟨C6_monotone_decrease.2.2.1 1 0 (initState 2) ⟨3, 4⟩ 3 (by decide),
   C6_monotone_decrease.2.2.2.1 (initState 2) ⟨3, 4, 1⟩ 3 (by decide),
   C6_monotone_decrease.2.2.2.2.1 gEmpty (initState 1)
     (relaxAll 1 0 { initState 1 with pq := [] } (gEmpty 1))
     ⟨0, 1, [], rfl, Or.inr ⟨rfl, rfl⟩⟩ 1,
   C6_monotone_decrease.2.2.2.2.2 gEmpty (initState 1)
     { initState 1 with pq := [] }
     ⟨0, 1, [], rfl, Or.inr ⟨rfl, Or.inl ⟨rfl, rfl⟩⟩⟩ 1⟩

/-- C7: on a graph with nonnegative weights, `dist[source] = 0` holds at
initialization, at every loop-iteration state of both routines, and is
preserved by every single relaxation write, so it holds at every point after
initialization throughout both runs. -/
theorem C7_source_zero :
    (∀ src : Nat, (initState src).dist src = 0) ∧
    (∀ (g : Graph) (src : Nat), Nonneg g →
      ∀ st, ReachesSeq g src st → st.dist src = 0) ∧
    (∀ (g : Graph) (src : Nat), Nonneg g →
      ∀ st, ReachesPar g src st → st.dist src = 0) ∧
    (∀ (src u : Nat) (d : Int) (st : DState) (e : Edge),
      0 ≤ e.weight → 0 ≤ d → BInv src st → (relaxEdge u d st e).dist src = 0) ∧
    (∀ (src : Nat) (st : DState) (up : Update),
      0 ≤ up.nd → BInv src st → (applyUpdate st up).dist src = 0) := by
  refine ⟨?_, ?_, ?_, ?_, ?_⟩
  · intro src
    simp [initState]
  · intro g src hnn st h
    exact (binv_reachesSeq hnn h).1
  · intro g src hnn st h
    exact (binv_reachesPar hnn h).1
  · intro src u d st e hw hd hb
    exact (relaxEdge_BInv hw hd hb).1
  · intro src st up hnd hb
    exact (applyUpdate_BInv hnd hb).1

/-- C7 witness: the invariant applied at the initial state and after one
concrete write. -/
theorem C7_source_zero_witness :
    (initState 1).dist 1 = 0 ∧ (relaxEdge 2 0 (initState 1) ⟨3, 4⟩).dist 1 = 0 :=
  ⟨C7_source_zero.2.1 gEmpty 1 gEmpty_nonneg (initState 1) Relation.ReflTransGen.refl,
   C7_source_zero.2.2.2.1 1 2 0 (initState 1) ⟨3, 4⟩ (by decide) (le_refl 0) (binv_init 1)⟩

/-- C8: the sentinel is `LLONG_MAX / 4` with C++ integer division, and every
candidate distance `nd = d + weight` computed for a validly popped entry
(`d = dist[u]`) with nonnegative int-range edge weights lies within
`[0, LLONG_MAX]`, so the exact value never overflows `long long`. -/
theorem C8_no_overflow :
    INF = 9223372036854775807 / 4 ∧
    (∀ (g : Graph) (src : Nat), Nonneg g →
      (∀ u, ∀ e ∈ g u, e.weight ≤ 2147483647) →
      ∀ st, ReachesSeq g src st ∨ ReachesPar g src st →
      ∀ (d : Int) (u : Nat) (rest : List PQItem),
        popMin st.pq = some ((d, u), rest) → d = st.dist u →
        ∀ e ∈ g u, 0 ≤ d + e.weight ∧ d + e.weight ≤ 9223372036854775807) := by
  refine ⟨rfl, ?_⟩
  intro g src hnn hw st hreach d u rest hpop hd e he
  have hb : BInv src st := by
    rcases hreach with h | h
    · exact binv_reachesSeq hnn h
    · exact binv_reachesPar hnn h
  have h1 := hb.2 u
  have h2 := hnn u e he
  have h3 := hw u e he
  have hINF := INF_eq
  rw [hd]
  omega

/-- C8 witness: the sentinel value, and the in-range bound at the first pop
of a concrete run. -/
theorem C8_no_overflow_witness :
    INF = 9223372036854775807 / 4 ∧
    (0 ≤ (0 : Int) + 5 ∧ (0 : Int) + 5 ≤ 9223372036854775807) :=
  ⟨C8_no_overflow.1,
   C8_no_overflow.2 gOne 1 gOne_nonneg gOne_int_weights (initState 1)
     (Or.inl Relation.ReflTransGen.refl) 0 1 [] rfl rfl ⟨2, 5⟩ (by decide)⟩

/-- C9: popping an entry whose distance differs from the current `dist` is a
pure discard in both routines: the iteration continues on the same state
with only the stale entry removed from the queue, and `dist` and `parent`
are unchanged. -/
theorem C9_stale_pop_discard :
    (∀ (g : Graph) (st : DState) (d : Int) (u : Nat) (rest : List PQItem) (fuel : Nat),
      popMin st.pq = some ((d, u), rest) → d ≠ st.dist u →
      seqLoop g (fuel + 1) st = seqLoop g fuel { st with pq := rest } ∧
      parLoop g (fuel + 1) st = parLoop g fuel { st with pq := rest }) ∧
    (∀ (g : Graph) (s s' : DState) (d : Int) (u : Nat) (rest : List PQItem),
      SeqStep g s s' → popMin s.pq = some ((d, u), rest) → d ≠ s.dist u →
      s'.dist = s.dist ∧ s'.parent = s.parent ∧ s'.pq = rest) ∧
    (∀ (g : Graph) (s s' : DState) (d : Int) (u : Nat) (rest : List PQItem),
      ParStep g s s' → popMin s.pq = some ((d, u), rest) → d ≠ s.dist u →
      s'.dist = s.dist ∧ s'.parent = s.parent ∧ s'.pq = rest) := by
  refine ⟨?_, ?_, ?_⟩
  · intro g st d u rest fuel hpop hne
    constructor
    · rw [seqLoop_succ_pop hpop, if_neg hne]
    · rw [parLoop_eq_seqLoop, parLoop_eq_seqLoop, seqLoop_succ_pop hpop, if_neg hne]
  · intro g s s' d u rest hstep hpop hne
    exact seqStep_stale_frame hstep hpop hne
  · intro g s s' d u rest hstep hpop hne
    exact seqStep_stale_frame ((parStep_iff_seqStep g s s').mp hstep) hpop hne

/-- C9 witness: a concrete stale entry `(5, 1)` against `dist[1] = 0` is
discarded with `dist` and `parent` untouched. -/
theorem C9_stale_pop_discard_witness :
    (seqLoop gEmpty 1 stStale = seqLoop gEmpty 0 { stStale with pq := [] }) ∧
    ({ stStale with pq := [] } : DState).dist = stStale.dist ∧
    ({ stStale with pq := [] } : DState).parent = stStale.parent :=
  ⟨(C9_stale_pop_discard.1 gEmpty stStale 5 1 [] 0 rfl (by decide)).1,
   (C9_stale_pop_discard.2.1 gEmpty stStale { stStale with pq := [] } 5 1 []
      ⟨5, 1, [], rfl, Or.inl ⟨by decide, rfl⟩⟩ rfl (by decide)).1,
   (C9_stale_pop_discard.2.1 gEmpty stStale { stStale with pq := [] } 5 1 []
      ⟨5, 1, [], rfl, Or.inl ⟨by decide, rfl⟩⟩ rfl (by decide)).2.1⟩

/-- C10 counterexample: "for every file that opens, `read_dimacs_gr` returns
true regardless of content" is false as stated: an arc record indexing
outside the allocated adjacency vector (`a 5 1 7` after `p sp 2 1`) is an
unchecked out-of-bounds `graph[u]` access, i.e. undefined behavior rather
than a `true` return. -/
theorem C10_counterexample :
    read_dimacs_gr (some [GrLine.problem 2 1, GrLine.arc 5 1 7]) = none ∧
    ¬ ∃ st : GrState,
      read_dimacs_gr (some [GrLine.problem 2 1, GrLine.arc 5 1 7]) = some (true, st) := by
  refine ⟨by decide, ?_⟩
  rintro ⟨st, h⟩
  have h0 : read_dimacs_gr (some [GrLine.problem 2 1, GrLine.arc 5 1 7]) = none := by decide
  rw [h0] at h
  exact Option.noConfusion h

/-- C10 (amended): `read_dimacs_gr` returns `false` exactly when the file
cannot be opened; every file that opens, whose arc records index inside the
currently allocated adjacency vector and whose problem lines declare at
least `-1` nodes, returns `true`: lines other than `c`/`p`/`a` records are
silently ignored, and no validation of node ranges, edge weights (negative
weights included) or declared edge counts is performed — but out-of-range
arc records are undefined behavior (an unchecked out-of-bounds `graph[u]`
access), and a problem line declaring fewer than `-1` nodes aborts inside
`graph.assign` (a huge unsigned size); neither is a `false` return. -/
theorem C10_reader_no_validation :
    read_dimacs_gr none = some (false, ⟨[], 0⟩) ∧
    (∀ ls : List GrLine, linesOK ls 0 →
      ∃ st : GrState, read_dimacs_gr (some ls) = some (true, st)) ∧
    (∀ st : GrState, processLine st GrLine.comment = some st ∧
      processLine st GrLine.other = some st) ∧
    (∀ (st : GrState) (u v w : Int), 0 ≤ u → u.toNat < st.graph.length →
      processLine st (GrLine.arc u v w) =
        some ⟨st.graph.set u.toNat ((st.graph.getD u.toNat []) ++ [⟨v, w⟩]), st.n_nodes⟩) ∧
    (∀ (st : GrState) (n m : Int), n + 1 < 0 →
      processLine st (GrLine.problem n m) = none) := by
  refine ⟨rfl, ?_, ?_, ?_, ?_⟩
  · intro ls hok
    obtain ⟨st', h⟩ := processAll_ok ls ⟨[], 0⟩ hok
    refine ⟨st', ?_⟩
    show (ls.foldlM processLine ⟨[], 0⟩).map (fun st => (true, st)) = some (true, st')
    rw [h]
    rfl
  · intro st
    exact ⟨rfl, rfl⟩
  · intro st u v w hu0 hulen
    show (if 0 ≤ u ∧ u.toNat < st.graph.length then
        some (⟨st.graph.set u.toNat ((st.graph.getD u.toNat []) ++ [⟨v, w⟩]),
          st.n_nodes⟩ : GrState)
      else none) = _
    rw [if_pos ⟨hu0, hulen⟩]
  · intro st n m hn
    have hneg : ¬ 0 ≤ n + 1 := by omega
    show (if 0 ≤ n + 1 then some (⟨List.replicate (n + 1).toNat [], n⟩ : GrState)
      else none) = none
    rw [if_neg hneg]

/-- C10 witness: a concrete well-indexed file (with an ignored extra line and
a negative weight) returns `true`, a concrete in-range arc record with a
negative weight is accepted verbatim, and a problem line declaring `-2`
nodes aborts. -/
theorem C10_reader_no_validation_witness :
    (∃ st : GrState,
      read_dimacs_gr (some [GrLine.other, GrLine.problem 1 0, GrLine.arc 1 1 (-7)]) =
        some (true, st)) ∧
    processLine ⟨[[]], 1⟩ (GrLine.arc 0 3 (-5)) =
      some ⟨([[]] : List (List RawEdge)).set 0 ((([[]] : List (List RawEdge)).getD 0 []) ++
        [⟨3, -5⟩]), 1⟩ ∧
    processLine ⟨[], 0⟩ (GrLine.problem (-2) 0) = none :=
  ⟨C10_reader_no_validation.2.1 [GrLine.other, GrLine.problem 1 0, GrLine.arc 1 1 (-7)]
      ⟨by decide, ⟨by decide, by decide⟩, trivial⟩,
   C10_reader_no_validation.2.2.2.1 ⟨[[]], 1⟩ 0 3 (-5) (by decide) (by decide),
   C10_reader_no_validation.2.2.2.2 ⟨[], 0⟩ (-2) 0 (by decide)⟩

end Dijkstra
